import Mathlib

/-!
Shallow embedding of the `piece-table-rs` repository (src/lib.rs, src/baseline.rs,
src/nodes.rs, src/nodekind_vec.rs) and verification of the claims about it.

Text is modelled at the byte level: a Rust `&str` / `String` becomes a `List Nat`
of its bytes.  All arithmetic is `Nat`; where Rust `usize` subtraction can
underflow (a panic in debug builds, wrap-around in release builds) the spot is
modelled explicitly and noted in a comment.
-/

namespace PieceTableRs

/-- `NodeKind` from src/lib.rs: which buffer the data of a node lives in. -/
inductive NodeKind where
  | Original : NodeKind
  | Added : NodeKind
deriving DecidableEq, Repr

/-- `Node` from src/lib.rs: a kind plus a `Range<usize>` (`range.start..range.end`). -/
structure Node where
  kind : NodeKind
  start : Nat
  rangeEnd : Nat
deriving DecidableEq, Repr

/-- `node.range.len()`: length of the node's byte range (`end - start`, and Rust's
`Range::len` is 0 when `start > end`, which is exactly `Nat` subtraction). -/
def Node.len (n : Node) : Nat := n.rangeEnd - n.start

/-- `PieceTable` from src/lib.rs: the original buffer, the append-only added
buffer, the ordered node list and the cached total length. -/
structure PieceTable where
  original : List Nat
  added : List Nat
  nodes : List Node
  len : Nat
deriving DecidableEq, Repr

/-- The bytes a single node designates, read from the selected buffer
(src/lib.rs:523, `Display for PieceTable`: `buffer[range.start..range.end]`). -/
def nodeText (original added : List Nat) (n : Node) : List Nat :=
  match n.kind with
  | NodeKind.Original => (original.drop n.start).take n.len
  | NodeKind.Added => (added.drop n.start).take n.len

/-- Rendering a node list: concatenation of every node's designated bytes. -/
def renderNodes (original added : List Nat) (ns : List Node) : List Nat :=
  match ns with
  | [] => []
  | n :: rest => nodeText original added n ++ renderNodes original added rest

namespace PieceTable

/-- `PieceTable::new` (src/lib.rs:81): one `Original` node spanning the string. -/
def new (string : List Nat) : PieceTable :=
  { original := string
    added := []
    nodes := [{ kind := NodeKind.Original, start := 0, rangeEnd := string.length }]
    len := string.length }

/-- `PieceTable::to_string` / the `Display` impl (src/lib.rs:523). -/
def render (t : PieceTable) : List Nat :=
  renderNodes t.original t.added t.nodes

/-- Loop body of `PieceTable::find_node` (src/lib.rs:467): linear scan keeping the
running index `idx` and cumulative byte offset `byteIdx`. -/
def findNodeAux : List Node → Nat → Nat → Nat → Option (Nat × Nat)
  | [], _, _, _ => none
  | n :: rest, offset, idx, byteIdx =>
    if byteIdx + n.len > offset then some (idx, byteIdx)
    else findNodeAux rest offset (idx + 1) (byteIdx + n.len)

/-- `PieceTable::find_node` (src/lib.rs:467). -/
def find_node (t : PieceTable) (offset : Nat) : Option (Nat × Nat) :=
  findNodeAux t.nodes offset 0 0

/-- `PieceTable::split_node` (src/lib.rs:491).  Returns the updated table and
whether a split happened.  Call sites guarantee `pieceIdx < nodes.length`
(Rust `unwrap`s the `get_mut`).  In the last branch Rust computes
`range.end - (offset - 1)`, which would underflow (panic) for
`offset > range.end + 1`; call sites inside `insert`/`delete` keep
`offset ≤ node.len` so the subtraction is exact there. -/
def split_node (t : PieceTable) (pieceIdx offset : Nat) : PieceTable × Bool :=
  let first := t.nodes.getD pieceIdx { kind := NodeKind.Original, start := 0, rangeEnd := 0 }
  if offset = 0 then
    (t, false)
  else if first.len > offset then
    let first' := { first with rangeEnd := first.rangeEnd - (first.len - offset) }
    let second := { first with start := first.start + offset }
    ({ t with nodes := ((t.nodes.set pieceIdx first').insertIdx (pieceIdx + 1) second) }, true)
  else
    ({ t with nodes := t.nodes.set pieceIdx { first with rangeEnd := first.rangeEnd - (offset - 1) } }, false)

/-- `PieceTable::insert` (src/lib.rs:205): append `data` to `added`, build an
`Added` node for it, splice it in at `offset` (splitting the covering node if
needed), append at the end when `offset` is past every node. -/
def insert (t : PieceTable) (data : List Nat) (offset : Nat) : PieceTable :=
  let node : Node := { kind := NodeKind.Added, start := t.added.length,
                       rangeEnd := t.added.length + data.length }
  let t1 := { t with added := t.added ++ data }
  match t1.find_node offset with
  | some (nodeIdx, nodePos) =>
    let sp := t1.split_node nodeIdx (offset - nodePos)
    let insertIdx := if sp.2 then nodeIdx + 1 else nodeIdx
    { sp.1 with nodes := sp.1.nodes.insertIdx insertIdx node, len := sp.1.len + data.length }
  | none =>
    { t1 with nodes := t1.nodes ++ [node], len := t1.len + data.length }

/-- Scan loop of `PieceTable::delete_complete_nodes` (src/lib.rs:439): walk the
node list from index `idx` with cumulative offset `byteIdx`, recording the first
and last node fully contained in `[rstart, rend)`, stopping once the cumulative
offset reaches `rend`. -/
def dcnScan (rstart rend : Nat) :
    List Node → Nat → Nat → Option Nat × Option Nat → Option Nat × Option Nat
  | [], _, _, acc => acc
  | n :: rest, i, byteIdx, acc =>
    let contained := byteIdx ≥ rstart ∧ byteIdx + n.len ≤ rend
    let acc' : Option Nat × Option Nat :=
      if contained then (if acc.1.isNone then some i else acc.1, some i) else acc
    let byteIdx' := byteIdx + n.len
    if byteIdx' ≥ rend then acc' else dcnScan rstart rend rest (i + 1) byteIdx' acc'

/-- `PieceTable::delete_complete_nodes` (src/lib.rs:439): drain
`nodes[first..=last]` when a fully-contained run was found. -/
def delete_complete_nodes (t : PieceTable) (idx byteIdx rstart rend : Nat) : PieceTable :=
  match dcnScan rstart rend (t.nodes.drop idx) idx byteIdx (none, none) with
  | (some first, some last) =>
    { t with nodes := t.nodes.take first ++ t.nodes.drop (last + 1) }
  | _ => t

/-- `PieceTable::delete` (src/lib.rs:253).  `range.len()` is `rend - rstart`
(`Nat` subtraction matches Rust's `Range::len`, which is 0 for `start > end`);
the final `self.len -= range.len()` underflows in Rust when the range is longer
than the cached length — callers must keep the range in bounds (§7 of the spec). -/
def delete (t : PieceTable) (rstart rend : Nat) : PieceTable :=
  let t2 :=
    match t.find_node rstart with
    | some (start, byteIdx) =>
      let td := t.delete_complete_nodes start byteIdx rstart rend
      match td.nodes.get? start with
      | some node =>
        if byteIdx ≤ rstart ∧ rend ≤ byteIdx + node.len then
          let sp := td.split_node start (rend - byteIdx)
          if sp.2 then
            -- `self.nodes.get_mut(start).unwrap().range.end -= range.end - range.start`
            let n0 := sp.1.nodes.getD start { kind := NodeKind.Original, start := 0, rangeEnd := 0 }
            { sp.1 with nodes := sp.1.nodes.set start { n0 with rangeEnd := n0.rangeEnd - (rend - rstart) } }
          else sp.1
        else td
      | none => td
    | none => t
  { t2 with len := t2.len - (rend - rstart) }

/-- `PieceTable::replace` (src/lib.rs:283): `end = (offset + data.len()).min(self.len() - 1)`,
then `delete(offset..end)` and `insert(data, offset)`.  Note the `- 1`: Rust
computes `self.len() - 1`, which panics on an empty table; `Nat` subtraction
truncates there, so statements about `replace` carry a `0 < t.len` hypothesis. -/
def replace (t : PieceTable) (data : List Nat) (offset : Nat) : PieceTable :=
  let e := min (offset + data.length) (t.len - 1)
  (t.delete offset e).insert data offset

/-- `PieceTable::byte` (src/lib.rs:401): locate the covering node, then index the
selected buffer at `node.range.start + (at - byte_idx)`.  The `getD _ 0` models
Rust's direct slice index, which the node-in-bounds invariant keeps in range. -/
def byte (t : PieceTable) (i : Nat) : Option Nat :=
  match t.find_node i with
  | some (idx, byteIdx) =>
    let node := t.nodes.getD idx { kind := NodeKind.Original, start := 0, rangeEnd := 0 }
    let off := i - byteIdx
    some (match node.kind with
      | NodeKind.Original => t.original.getD (node.start + off) 0
      | NodeKind.Added => t.added.getD (node.start + off) 0)
  | none => none

end PieceTable

/-- `PTableSlice` from src/lib.rs:56.  The slice owns a copy of node descriptors;
its raw `*const` buffer pointers alias the owning table's buffers, so rendering
a slice is modelled by reading the nodes against buffers supplied at render
time (`renderSlice`). -/
structure PTableSlice where
  nodes : List Node
deriving DecidableEq, Repr

namespace PieceTable

/-- `PieceTable::create_slice` (src/lib.rs:313): copy the node list verbatim. -/
def create_slice (t : PieceTable) : PTableSlice := ⟨t.nodes⟩

/-- Loop of `PieceTable::slice` (src/lib.rs:350): walk the node list with the
cumulative offset and the `found_start` flag, clipping the first and last
intersecting nodes.  `rs - byteIdx` is Rust's `saturating_sub`, which is `Nat`
subtraction. -/
def sliceWalk (rs re : Nat) : List Node → Nat → Bool → List Node
  | [], _, _ => []
  | n :: rest, byteIdx, found =>
    let nodeEnd := byteIdx + n.len
    if nodeEnd > rs ∧ byteIdx < re then
      if found then
        if nodeEnd < re then
          n :: sliceWalk rs re rest nodeEnd found
        else
          [{ n with rangeEnd := n.rangeEnd - (nodeEnd - re) }]
      else
        let n' := { n with start := n.start + (rs - byteIdx) }
        if nodeEnd ≥ re then
          { n' with rangeEnd := n'.rangeEnd - (nodeEnd - re) } :: sliceWalk rs re rest nodeEnd true
        else
          n' :: sliceWalk rs re rest nodeEnd true
    else
      sliceWalk rs re rest nodeEnd found

/-- `PieceTable::slice` (src/lib.rs:350). -/
def slice (t : PieceTable) (rs re : Nat) : PTableSlice :=
  ⟨sliceWalk rs re t.nodes 0 false⟩

end PieceTable

/-- Rendering a slice (`From<&PTableSlice> for String`, src/lib.rs:683): the
node list is the slice's own frozen copy, the buffers are read through the
slice's pointers, i.e. they are whatever the owning table's buffers hold at
render time. -/
def renderSlice (sl : PTableSlice) (original added : List Nat) : List Nat :=
  renderNodes original added sl.nodes

/-- Rust `usize` subtraction `a - b` with release-build wrap-around semantics
(`2^64` two's complement; in debug builds an underflow panics instead). -/
def usizeSub (a b : Nat) : Nat := (a + (2 ^ 64 - b % 2 ^ 64)) % 2 ^ 64

namespace PTableSlice

/-- Loop of `PTableSlice::slice` (src/lib.rs:637): walk the slice's nodes with a
`remaining` byte budget; `start_offset.saturating_sub(byte_idx)` is `Nat`
subtraction.  Rust checks `remaining == 0` at the end of every iteration. -/
def sliceWalkS (startOffset : Nat) : List Node → Nat → Nat → List Node
  | [], _, _ => []
  | n :: rest, byteIdx, remaining =>
    if byteIdx + n.len > startOffset then
      let nodeStart := startOffset - byteIdx
      let nodeEnd := if remaining < n.len - nodeStart then nodeStart + remaining else n.len
      if nodeStart < nodeEnd then
        let ns' := n.start + nodeStart
        let newNode : Node := { n with start := ns', rangeEnd := ns' + (nodeEnd - nodeStart) }
        let remaining' := remaining - (nodeEnd - nodeStart)
        if remaining' = 0 then [newNode]
        else newNode :: sliceWalkS startOffset rest (byteIdx + n.len) remaining'
      else
        if remaining = 0 then [] else sliceWalkS startOffset rest (byteIdx + n.len) remaining
    else
      if remaining = 0 then [] else sliceWalkS startOffset rest (byteIdx + n.len) remaining

/-- `PTableSlice::slice` (src/lib.rs:637).  `let mut remaining = range.end - range.start`
is `usize` subtraction performed before any validity check: for
`range.start > range.end` it underflows (wraps in release builds, modelled by
`usizeSub`; panics in debug builds). -/
def slice (sl : PTableSlice) (rs re : Nat) : Option PTableSlice :=
  let newNodes := sliceWalkS rs sl.nodes 0 (usizeSub re rs)
  if newNodes.isEmpty then none else some ⟨newNodes⟩

end PTableSlice

/-- Render of an optional slice: an absent slice has no text. -/
def renderOptSlice (o : Option PTableSlice) (original added : List Nat) : List Nat :=
  match o with
  | none => []
  | some sl => renderSlice sl original added

/-- `Baseline` from src/baseline.rs: the plain-string reference model.
`insert` is `String::insert_str`, `delete` is `String::replace_range(range, "")`. -/
def Baseline.insert (text data : List Nat) (offset : Nat) : List Nat :=
  text.take offset ++ data ++ text.drop offset

/-- `Baseline::delete` (src/baseline.rs:18). -/
def Baseline.delete (text : List Nat) (rstart rend : Nat) : List Nat :=
  text.take rstart ++ text.drop rend

/-! ### The SoA node store of src/nodes.rs and its cascading locator -/

namespace Nds

/-- Result of a node search (src/nodes.rs:181): either the found node's
`(idx, text_idx)` or the first `(idx, text_idx)` that was not searched. -/
inductive NodeSearch where
  | found : Nat → Nat → NodeSearch
  | remaining : Nat → Nat → NodeSearch
deriving DecidableEq, Repr

/-- `NodeSearch + NodeHandle` (src/nodes.rs:207): add componentwise. -/
def NodeSearch.add (s : NodeSearch) (di dt : Nat) : NodeSearch :=
  match s with
  | .found i t => .found (i + di) (t + dt)
  | .remaining i t => .remaining (i + di) (t + dt)

/-- `slice::as_chunks::<N>()`: the list of complete `n`-element chunks and the
leftover.  `fuel` bounds the recursion (call with `l.length`). -/
def asChunksGo (n : Nat) : Nat → List Nat → List (List Nat) × List Nat
  | 0, l => ([], l)
  | fuel + 1, l =>
    if 0 < n ∧ n ≤ l.length then
      let rest := asChunksGo n fuel (l.drop n)
      (l.take n :: rest.1, rest.2)
    else ([], l)

/-- `slice::as_chunks::<N>()` over a length array. -/
def asChunks (n : Nat) (l : List Nat) : List (List Nat) × List Nat :=
  asChunksGo n l.length l

/-- `find_node_1` (src/nodes.rs:290): scalar linear scan with running `idx` and
cumulative `byte_idx`. -/
def findNode1 : List Nat → Nat → Nat → Nat → NodeSearch
  | [], _, idx, byteIdx => .remaining idx byteIdx
  | l :: rest, offset, idx, byteIdx =>
    if byteIdx + l > offset then .found idx byteIdx
    else findNode1 rest offset (idx + 1) (byteIdx + l)

/-- `find_node_8` (src/nodes.rs:261): skip 8-wide lanes by their sums; inside the
matching lane recurse with `find_node_1(lane, offset)` — note the code passes
the absolute `offset`, not `offset - byte_idx`, and rebases only the result. -/
def findNode8 : List (List Nat) → Nat → Nat → Nat → NodeSearch
  | [], _, idx, byteIdx => .remaining idx byteIdx
  | lane :: rest, offset, idx, byteIdx =>
    let sum := lane.sum
    if byteIdx + sum > offset then (findNode1 lane offset 0 0).add idx byteIdx
    else findNode8 rest offset (idx + 8) (byteIdx + sum)

/-- `find_node_64` (src/nodes.rs:226): skip 64-wide lanes by their sums; inside
the matching lane split into 8-wide lanes and recurse, again passing the
absolute `offset` down while rebasing only the returned handle. -/
def findNode64 : List (List Nat) → Nat → Nat → Nat → NodeSearch
  | [], _, idx, byteIdx => .remaining idx byteIdx
  | lane :: rest, offset, idx, byteIdx =>
    let sum := lane.sum
    if byteIdx + sum > offset then
      let ch := asChunks 8 lane
      match (findNode8 ch.1 offset 0 0).add idx byteIdx with
      | .found i t => .found i t
      | .remaining i t => (findNode1 ch.2 offset 0 0).add i t
    else findNode64 rest offset (idx + 64) (byteIdx + sum)

/-- `Nodes::find_node` (src/nodes.rs:153) over the length array.  In the second
stage's `Found` arm the code adds `NodeHandle { text_idx: len, idx }` where
`idx` is the pattern binding (shadowing the outer one), so the index is doubled
rather than rebased; the third stage returns the found handle without any
rebasing at all. -/
def find_node (lens : List Nat) (offset : Nat) : Option (Nat × Nat) :=
  let ch64 := asChunks 64 lens
  match findNode64 ch64.1 offset 0 0 with
  | .found i t => some (i, t)
  | .remaining idx0 len0 =>
    let ch8 := asChunks 8 ch64.2
    match findNode8 ch8.1 offset 0 0 with
    | .found i t => some (i + i, t + len0)
    | .remaining idx1 len1 =>
      match findNode1 ch8.2 offset 0 0 with
      | .found i t => some (i, t)
      | .remaining _ _ =>
        -- silence unused-variable linting of the faithful bindings
        let _ := idx0; let _ := idx1; let _ := len1
        none

/-- The naive left-to-right linear scan the spec specifies as the reference:
the first node whose span `[cum, cum + len)` contains `offset`, with its
cumulative start byte; `none` at or beyond the total length. -/
def naiveFindNode (lens : List Nat) (offset : Nat) : Option (Nat × Nat) :=
  go lens offset 0 0
where
  go : List Nat → Nat → Nat → Nat → Option (Nat × Nat)
    | [], _, _, _ => none
    | l :: rest, offset, idx, cum =>
      if cum + l > offset then some (idx, cum)
      else go rest offset (idx + 1) (cum + l)

end Nds

/-! ### The bit-packed tag array of src/nodekind_vec.rs -/

namespace NKV

/-- `From<bool> for NodeKind` (src/nodekind_vec.rs:173): true is `Original`. -/
def kindOfBit (b : Bool) : NodeKind :=
  if b then NodeKind.Original else NodeKind.Added

/-- `NodeKindVec` (src/nodekind_vec.rs:8): bit-packed words (`WORD_SIZE = 64`)
plus the element count.  Words are `usize`, modelled as `Nat` kept below
`2 ^ 64` by the operations (the explicit `% 2 ^ 64` marks every place Rust
truncates a shift). -/
structure NodeKindVec where
  inner : List Nat
  len : Nat
deriving DecidableEq, Repr

/-- `NodeKindVec::new`. -/
def new : NodeKindVec := { inner := [], len := 0 }

/-- `NodeKindVec::offset` (src/nodekind_vec.rs:32). -/
def offset (v : NodeKindVec) (idx : Nat) : Option (Nat × Nat) :=
  if v.len ≤ idx then none else some (idx / 64, idx % 64)

/-- `NodeKindVec::increment_len` (src/nodekind_vec.rs:40). -/
def increment_len (v : NodeKindVec) : NodeKindVec :=
  { inner := if v.len % 64 = 0 then v.inner ++ [0] else v.inner, len := v.len + 1 }

/-- `NodeKindVec::set` (src/nodekind_vec.rs:53).  `!mask` on a 64-bit word is
`mask ^^^ (2 ^ 64 - 1)`; the `none` case is Rust's `unwrap` panic, which call
sites exclude. -/
def set (v : NodeKindVec) (idx : Nat) (value : NodeKind) : NodeKindVec :=
  match offset v idx with
  | none => v
  | some (w, o) =>
    let mask := 1 <<< o
    let word := v.inner.getD w 0
    let word' := if value = NodeKind.Original then word ||| mask
                 else word &&& (mask ^^^ (2 ^ 64 - 1))
    { v with inner := v.inner.set w word' }

/-- `NodeKindVec::push_back` (src/nodekind_vec.rs:48). -/
def push_back (v : NodeKindVec) (value : NodeKind) : NodeKindVec :=
  let v1 := increment_len v
  set v1 (v1.len - 1) value

/-- The `for word_idx in (start_word..end_word).rev()` loop of `shift_right`
(src/nodekind_vec.rs:81): `c` counts the remaining iterations, so the first
processed index is `sw + c - 1 = end_word - 1`.  `<<< 1` is truncated exactly
where Rust's `<< 1` wraps. -/
def shiftWords (inner : List Nat) (sw : Nat) : Nat → List Nat
  | 0 => inner
  | c + 1 =>
    let wi := sw + c
    let cur := inner.getD wi 0
    let nxt := inner.getD (wi + 1) 0
    shiftWords (inner.set (wi + 1) ((cur >>> 63) ||| ((nxt <<< 1) % 2 ^ 64))) sw c

/-- `NodeKindVec::shift_right` (src/nodekind_vec.rs:66). -/
def shift_right (v : NodeKindVec) (idx : Nat) : NodeKindVec :=
  let v1 := increment_len v
  match offset v1 idx, offset v1 (v1.len - 1) with
  | some (sw, so), some (ew, _) =>
    if sw = ew then
      let word := v1.inner.getD sw 0
      let mask := ((2 ^ 64 - 1) <<< so) % 2 ^ 64
      let w' := (word &&& (mask ^^^ (2 ^ 64 - 1))) ||| (((word &&& mask) <<< 1) % 2 ^ 64)
      { v1 with inner := v1.inner.set sw w' }
    else
      let inner1 := shiftWords v1.inner sw (ew - sw)
      let word := inner1.getD sw 0
      let mask := ((2 ^ 64 - 1) <<< so) % 2 ^ 64
      let w' := (word &&& (mask ^^^ (2 ^ 64 - 1))) ||| (((word &&& mask) <<< 1) % 2 ^ 64)
      { v1 with inner := inner1.set sw w' }
  | _, _ => v1

/-- `NodeKindVec::insert` (src/nodekind_vec.rs:98).  `idx > len` is a Rust
panic ("Index out of bounds"); the model returns the vector unchanged there
and the refinement theorem only applies operations at valid indices. -/
def insert (v : NodeKindVec) (idx : Nat) (value : NodeKind) : NodeKindVec :=
  if idx > v.len then v
  else if idx = v.len then push_back v value
  else set (shift_right v idx) idx value

/-- `NodeKindVec::get` (src/nodekind_vec.rs:154). -/
def get (v : NodeKindVec) (idx : Nat) : Option NodeKind :=
  match offset v idx with
  | none => none
  | some (w, o) => some (kindOfBit ((((v.inner.getD w 0) >>> o) &&& 1) == 1))

end NKV

/-! ### Well-formedness: every node's byte range lies inside its buffer -/

/-- The buffer a node's tag selects. -/
def Node.buf (original added : List Nat) (n : Node) : List Nat :=
  match n.kind with
  | NodeKind.Original => original
  | NodeKind.Added => added

/-- A node is in bounds when its range end does not pass the end of its buffer
(§3 of the spec; the Rust code indexes buffers with `get_unchecked`, so this is
the invariant that makes rendering defined). -/
def Node.InBounds (original added : List Nat) (n : Node) : Prop :=
  n.rangeEnd ≤ (n.buf original added).length

instance (original added : List Nat) (n : Node) :
    Decidable (n.InBounds original added) :=
  inferInstanceAs (Decidable (_ ≤ _))

/-- All nodes of a list are in bounds. -/
def NodesInBounds (original added : List Nat) (ns : List Node) : Prop :=
  ∀ n ∈ ns, n.InBounds original added

instance (original added : List Nat) (ns : List Node) :
    Decidable (NodesInBounds original added ns) :=
  inferInstanceAs (Decidable (∀ n ∈ ns, n.InBounds original added))

/-- Well-formedness of a table: all its nodes are in bounds. -/
def PieceTable.Wf (t : PieceTable) : Prop :=
  NodesInBounds t.original t.added t.nodes

instance (t : PieceTable) : Decidable t.Wf :=
  inferInstanceAs (Decidable (NodesInBounds _ _ _))

theorem nodeText_eq_buf (original added : List Nat) (n : Node) :
    nodeText original added n = ((n.buf original added).drop n.start).take n.len := by
  rcases n with ⟨k, s, e⟩
  cases k <;> rfl

theorem length_nodeText (original added : List Nat) {n : Node}
    (h : n.InBounds original added) :
    (nodeText original added n).length = n.len := by
  rw [nodeText_eq_buf]
  simp only [List.length_take, List.length_drop]
  unfold Node.InBounds at h
  unfold Node.len
  omega

theorem renderNodes_nil (original added : List Nat) :
    renderNodes original added [] = [] := rfl

theorem renderNodes_cons (original added : List Nat) (n : Node) (ns : List Node) :
    renderNodes original added (n :: ns) =
      nodeText original added n ++ renderNodes original added ns := rfl

theorem renderNodes_append (original added : List Nat) (l1 l2 : List Node) :
    renderNodes original added (l1 ++ l2) =
      renderNodes original added l1 ++ renderNodes original added l2 := by
  induction l1 with
  | nil => rfl
  | cons n rest ih => simp [renderNodes_cons, ih]

/-- Sum of node lengths of a list. -/
def sumLens (ns : List Node) : Nat := (ns.map Node.len).sum

theorem length_renderNodes (original added : List Nat) {ns : List Node}
    (h : NodesInBounds original added ns) :
    (renderNodes original added ns).length = sumLens ns := by
  induction ns with
  | nil => rfl
  | cons n rest ih =>
    have hn : n.InBounds original added := h n (List.mem_cons_self n rest)
    have hr : NodesInBounds original added rest := fun m hm => h m (List.mem_cons_of_mem n hm)
    simp [renderNodes_cons, sumLens, length_nodeText original added hn, ih hr]

/-- Appending to the `added` buffer does not change the text an in-bounds node
designates: the central fact behind snapshot immutability (§3, §5 of the spec). -/
theorem nodeText_added_append (original added ext : List Nat) {n : Node}
    (h : n.InBounds original added) :
    nodeText original (added ++ ext) n = nodeText original added n := by
  rcases n with ⟨k, s, e⟩
  cases k with
  | Original => rfl
  | Added =>
    unfold Node.InBounds Node.buf at h
    simp only at h
    show ((added ++ ext).drop s).take (Node.len ⟨NodeKind.Added, s, e⟩) = _
    rw [List.drop_append_eq_append_drop, List.take_append_eq_append_take]
    have h1 : Node.len ⟨NodeKind.Added, s, e⟩ ≤ (added.drop s).length := by
      show e - s ≤ (added.drop s).length
      simp only [List.length_drop]
      omega
    rw [Nat.sub_eq_zero_of_le h1, List.take_zero, List.append_nil]
    rfl

theorem renderNodes_added_append (original added ext : List Nat) {ns : List Node}
    (h : NodesInBounds original added ns) :
    renderNodes original (added ++ ext) ns = renderNodes original added ns := by
  induction ns with
  | nil => rfl
  | cons n rest ih =>
    have hn : n.InBounds original added := h n (List.mem_cons_self n rest)
    have hr : NodesInBounds original added rest := fun m hm => h m (List.mem_cons_of_mem n hm)
    rw [renderNodes_cons, renderNodes_cons, nodeText_added_append original added ext hn, ih hr]

/-! ### Characterisation of the linear `find_node` scan -/

/-- The default node the embedding uses where Rust `unwrap`s an index that call
sites keep in bounds. -/
def dNode : Node := { kind := NodeKind.Original, start := 0, rangeEnd := 0 }

theorem findNodeAux_eq_none {ns : List Node} {offset idx byteIdx : Nat}
    (h : byteIdx ≤ offset) :
    (PieceTable.findNodeAux ns offset idx byteIdx = none) ↔ byteIdx + sumLens ns ≤ offset := by
  induction ns generalizing idx byteIdx with
  | nil =>
    simp only [PieceTable.findNodeAux, sumLens, List.map_nil, List.sum_nil]
    exact ⟨fun _ => by omega, fun _ => by trivial⟩
  | cons n rest ih =>
    simp only [PieceTable.findNodeAux]
    by_cases hg : byteIdx + n.len > offset
    · rw [if_pos hg]
      simp only [sumLens, List.map_cons, List.sum_cons]
      constructor
      · intro hc; exact absurd hc (by simp)
      · intro hc; exact absurd hc (by omega)
    · rw [if_neg hg]
      rw [ih (by omega)]
      simp only [sumLens, List.map_cons, List.sum_cons]
      omega

theorem findNodeAux_eq_some {ns : List Node} {offset idx byteIdx j c : Nat}
    (h : byteIdx ≤ offset)
    (hs : PieceTable.findNodeAux ns offset idx byteIdx = some (j, c)) :
    ∃ k, k < ns.length ∧ j = idx + k ∧ c = byteIdx + sumLens (ns.take k) ∧
      c ≤ offset ∧ offset < c + (ns.getD k dNode).len := by
  induction ns generalizing idx byteIdx with
  | nil => simp [PieceTable.findNodeAux] at hs
  | cons n rest ih =>
    rw [PieceTable.findNodeAux] at hs
    by_cases hg : byteIdx + n.len > offset
    · rw [if_pos hg] at hs
      simp only [Option.some.injEq, Prod.mk.injEq] at hs
      obtain ⟨rfl, rfl⟩ := hs
      exact ⟨0, by simp, by omega, by simp [sumLens], h, by simpa using hg⟩
    · rw [if_neg hg] at hs
      obtain ⟨k, hk, hj, hc, hco, hoff⟩ := ih (by omega) hs
      refine ⟨k + 1, by simpa using hk, by omega, ?_, hco, by simpa using hoff⟩
      simp only [List.take_succ_cons, sumLens, List.map_cons, List.sum_cons] at hc ⊢
      omega

theorem nodesInBounds_take {original added : List Nat} {ns : List Node}
    (h : NodesInBounds original added ns) (k : Nat) :
    NodesInBounds original added (ns.take k) :=
  fun n hn => h n (List.mem_of_mem_take hn)

theorem nodesInBounds_drop {original added : List Nat} {ns : List Node}
    (h : NodesInBounds original added ns) (k : Nat) :
    NodesInBounds original added (ns.drop k) :=
  fun n hn => h n (List.mem_of_mem_drop hn)

/-- C9 core: on a well-formed table, `byte(at)` agrees with indexing the
rendered text. -/
theorem byte_eq_render_getElem {t : PieceTable} (hwf : t.Wf) (i : Nat) :
    t.byte i = (t.render)[i]? := by
  unfold PieceTable.byte PieceTable.find_node
  cases hfn : PieceTable.findNodeAux t.nodes i 0 0 with
  | none =>
    have hlen : sumLens t.nodes ≤ i := by
      have := (findNodeAux_eq_none (Nat.zero_le i)).mp hfn
      omega
    have : (t.render).length ≤ i := by
      rw [PieceTable.render, length_renderNodes t.original t.added hwf]
      exact hlen
    rw [List.getElem?_eq_none this]
  | some p =>
    obtain ⟨j, c⟩ := p
    simp only
    obtain ⟨k, hk, hj, hc, hco, hoff⟩ := findNodeAux_eq_some (Nat.zero_le i) hfn
    rw [Nat.zero_add] at hj
    rw [hj]
    simp only [dNode] at hoff
    have hget : t.nodes.getD k { kind := NodeKind.Original, start := 0, rangeEnd := 0 } =
        t.nodes[k] := by
      simp [List.getD_eq_getElem?_getD, List.getElem?_eq_getElem hk]
    set n := t.nodes[k] with hn
    have hmem : n ∈ t.nodes := List.getElem_mem hk
    have hnb : n.InBounds t.original t.added := hwf n hmem
    -- decompose the node list around index k
    have hdecomp : t.nodes = t.nodes.take k ++ n :: t.nodes.drop (k + 1) := by
      conv_lhs => rw [← List.take_append_drop k t.nodes]
      rw [List.drop_eq_getElem_cons hk]
    have hlen1 : (renderNodes t.original t.added (t.nodes.take k)).length = c := by
      rw [length_renderNodes t.original t.added (nodesInBounds_take hwf k)]
      omega
    have hrender : t.render =
        renderNodes t.original t.added (t.nodes.take k) ++
          (nodeText t.original t.added n ++
            renderNodes t.original t.added (t.nodes.drop (k + 1))) := by
      rw [PieceTable.render]
      conv_lhs => rw [hdecomp]
      rw [renderNodes_append, renderNodes_cons]
    have hlen2 : (nodeText t.original t.added n).length = n.len :=
      length_nodeText t.original t.added hnb
    have hclen : c ≤ i := hco
    have hoff' : i < c + n.len := by
      rw [hget] at hoff
      exact hoff
    rw [hrender]
    rw [List.getElem?_append_right (by omega : (renderNodes t.original t.added (t.nodes.take k)).length ≤ i)]
    rw [hlen1]
    rw [List.getElem?_append]
    rw [if_pos (by omega : i - c < (nodeText t.original t.added n).length)]
    -- the indexed byte inside the node's text
    have hbufidx : n.start + (i - c) < (n.buf t.original t.added).length := by
      have : n.start + (i - c) < n.rangeEnd := by
        unfold Node.len at hoff'
        omega
      have hb := hnb
      unfold Node.InBounds at hb
      omega
    have htext : (nodeText t.original t.added n)[i - c]? =
        some ((n.buf t.original t.added).getD (n.start + (i - c)) 0) := by
      rw [nodeText_eq_buf]
      rw [List.getElem?_take]
      rw [if_pos (by unfold Node.len at hoff' ⊢; omega : i - c < n.len)]
      rw [List.getElem?_drop]
      rw [List.getElem?_eq_getElem hbufidx]
      rw [List.getD_eq_getElem?_getD, List.getElem?_eq_getElem hbufidx]
      rfl
    rw [htext, hget]
    have hbufmatch : (match n.kind with
        | NodeKind.Original => t.original.getD (n.start + (i - c)) 0
        | NodeKind.Added => t.added.getD (n.start + (i - c)) 0) =
        (n.buf t.original t.added).getD (n.start + (i - c)) 0 := by
      cases hkind : n.kind <;> simp [Node.buf, hkind]
    rw [hbufmatch]

/-! ### Operation sequences and preservation of well-formedness -/

/-- A mutating operation of the public interface (§6 of the spec). -/
inductive Op where
  | ins (data : List Nat) (offset : Nat)
  | del (rstart rend : Nat)
  | rep (data : List Nat) (offset : Nat)
deriving DecidableEq, Repr

/-- Apply one operation. -/
def applyOp (t : PieceTable) : Op → PieceTable
  | Op.ins d o => t.insert d o
  | Op.del a b => t.delete a b
  | Op.rep d o => t.replace d o

/-- Apply a sequence of operations in order. -/
def applyOps (t : PieceTable) : List Op → PieceTable
  | [] => t
  | op :: rest => applyOps (applyOp t op) rest

/-- Validity of one operation against the current table (§7 of the spec:
`delete` requires `start ≤ end ≤ len()`; insertion past the end is legal;
`replace` additionally needs a non-empty table because of its `len() - 1`). -/
def ValidOp (t : PieceTable) : Op → Prop
  | Op.ins _ o => o ≤ t.len
  | Op.del a b => a ≤ b ∧ b ≤ t.len
  | Op.rep _ o => o ≤ t.len ∧ 0 < t.len

instance (t : PieceTable) (op : Op) : Decidable (ValidOp t op) :=
  match op with
  | Op.ins _ o => inferInstanceAs (Decidable (o ≤ t.len))
  | Op.del _ _ => inferInstanceAs (Decidable (_ ∧ _))
  | Op.rep _ _ => inferInstanceAs (Decidable (_ ∧ _))

/-- Validity of a whole sequence, each op against the table it acts on. -/
def ValidOps (t : PieceTable) : List Op → Prop
  | [] => True
  | op :: rest => ValidOp t op ∧ ValidOps (applyOp t op) rest

instance : (t : PieceTable) → (ops : List Op) → Decidable (ValidOps t ops)
  | _, [] => inferInstanceAs (Decidable True)
  | t, op :: rest =>
    have : Decidable (ValidOps (applyOp t op) rest) := instDecidableValidOps _ _
    inferInstanceAs (Decidable (_ ∧ _))

theorem inBounds_added_append {original added ext : List Nat} {n : Node}
    (h : n.InBounds original added) : n.InBounds original (added ++ ext) := by
  rcases n with ⟨k, s, e⟩
  cases k <;>
    · unfold Node.InBounds Node.buf at h ⊢
      simp only [List.length_append] at *
      omega

theorem dNode_inBounds (original added : List Nat) :
    Node.InBounds original added { kind := NodeKind.Original, start := 0, rangeEnd := 0 } := by
  unfold Node.InBounds
  exact Nat.zero_le _

theorem getD_inBounds {original added : List Nat} {ns : List Node}
    (h : NodesInBounds original added ns) (i : Nat) :
    (ns.getD i { kind := NodeKind.Original, start := 0, rangeEnd := 0 }).InBounds original added := by
  by_cases hi : i < ns.length
  · have : ns.getD i { kind := NodeKind.Original, start := 0, rangeEnd := 0 } = ns[i] := by
      simp [List.getD_eq_getElem?_getD, List.getElem?_eq_getElem hi]
    rw [this]
    exact h _ (List.getElem_mem hi)
  · have : ns.getD i { kind := NodeKind.Original, start := 0, rangeEnd := 0 } =
        { kind := NodeKind.Original, start := 0, rangeEnd := 0 } := by
      simp [List.getD_eq_getElem?_getD, List.getElem?_eq_none (by omega : ns.length ≤ i)]
    rw [this]
    exact dNode_inBounds original added

/-- A node whose range end is bounded by an in-bounds node of the same kind is
in bounds. -/
theorem inBounds_of_le {original added : List Nat} {n m : Node}
    (h : m.InBounds original added) (hk : n.kind = m.kind)
    (he : n.rangeEnd ≤ m.rangeEnd) : n.InBounds original added := by
  unfold Node.InBounds Node.buf at h ⊢
  rw [hk]
  omega

theorem mem_of_mem_insertIdx {α : Type} {x a : α} {l : List α} {i : Nat}
    (h : a ∈ l.insertIdx i x) : a = x ∨ a ∈ l := by
  induction l generalizing i with
  | nil =>
    cases i with
    | zero => simp at h; exact Or.inl h
    | succ j => simp at h
  | cons b t ih =>
    cases i with
    | zero =>
      simp at h
      rcases h with h | h | h
      · exact Or.inl h
      · exact Or.inr (by simp [h])
      · exact Or.inr (by simp [h])
    | succ j =>
      simp only [List.insertIdx_succ_cons, List.mem_cons] at h
      rcases h with h | h
      · exact Or.inr (by simp [h])
      · rcases ih h with h' | h'
        · exact Or.inl h'
        · exact Or.inr (by simp [h'])

theorem split_node_original (t : PieceTable) (i off : Nat) :
    (t.split_node i off).1.original = t.original := by
  unfold PieceTable.split_node
  simp only []
  split_ifs <;> rfl

theorem split_node_added (t : PieceTable) (i off : Nat) :
    (t.split_node i off).1.added = t.added := by
  unfold PieceTable.split_node
  simp only []
  split_ifs <;> rfl

theorem wf_split_node {t : PieceTable} (hwf : t.Wf) (i off : Nat) :
    ((t.split_node i off).1).Wf := by
  unfold PieceTable.split_node
  have hfirst := getD_inBounds hwf i
  set first := t.nodes.getD i { kind := NodeKind.Original, start := 0, rangeEnd := 0 } with hf
  by_cases h0 : off = 0
  · simpa [h0] using hwf
  · rw [if_neg h0]
    by_cases h1 : first.len > off
    · rw [if_pos h1]
      intro n hn
      rcases mem_of_mem_insertIdx hn with rfl | hn'
      · exact inBounds_of_le hfirst rfl (le_refl _)
      · rcases List.mem_or_eq_of_mem_set hn' with hn'' | rfl
        · exact hwf n hn''
        · exact inBounds_of_le hfirst rfl (Nat.sub_le _ _)
    · rw [if_neg h1]
      intro n hn
      rcases List.mem_or_eq_of_mem_set hn with hn'' | rfl
      · exact hwf n hn''
      · exact inBounds_of_le hfirst rfl (Nat.sub_le _ _)

theorem wf_delete_complete_nodes {t : PieceTable} (hwf : t.Wf)
    (idx byteIdx rstart rend : Nat) :
    (t.delete_complete_nodes idx byteIdx rstart rend).Wf := by
  unfold PieceTable.delete_complete_nodes
  cases hscan : PieceTable.dcnScan rstart rend (t.nodes.drop idx) idx byteIdx (none, none) with
  | mk f l =>
    cases f with
    | none => simpa using hwf
    | some first =>
      cases l with
      | none => simpa using hwf
      | some last =>
        intro n hn
        simp only [List.mem_append] at hn
        rcases hn with hn | hn
        · exact hwf n (List.mem_of_mem_take hn)
        · exact hwf n (List.mem_of_mem_drop hn)

theorem wf_insert {t : PieceTable} (hwf : t.Wf) (data : List Nat) (offset : Nat) :
    (t.insert data offset).Wf := by
  unfold PieceTable.insert
  have hwf1 : NodesInBounds t.original (t.added ++ data) t.nodes :=
    fun n hn => inBounds_added_append (hwf n hn)
  have hnew : Node.InBounds t.original (t.added ++ data)
      { kind := NodeKind.Added, start := t.added.length,
        rangeEnd := t.added.length + data.length } := by
    unfold Node.InBounds Node.buf
    simp
  cases hfn : PieceTable.find_node { t with added := t.added ++ data } offset with
  | none =>
    simp only [hfn]
    intro n hn
    simp only [List.mem_append, List.mem_singleton] at hn
    rcases hn with hn | rfl
    · exact hwf1 n hn
    · exact hnew
  | some p =>
    obtain ⟨nodeIdx, nodePos⟩ := p
    simp only [hfn]
    have hsp : (({ t with added := t.added ++ data } :
        PieceTable).split_node nodeIdx (offset - nodePos)).1.Wf :=
      wf_split_node (t := { t with added := t.added ++ data }) hwf1 nodeIdx (offset - nodePos)
    intro n hn
    rcases mem_of_mem_insertIdx hn with rfl | hn'
    · have horig := split_node_original { t with added := t.added ++ data } nodeIdx (offset - nodePos)
      have hadd := split_node_added { t with added := t.added ++ data } nodeIdx (offset - nodePos)
      simp only at horig hadd
      rw [horig, hadd]
      exact hnew
    · exact hsp n hn'

theorem delete_complete_nodes_original (t : PieceTable) (i b rs re : Nat) :
    (t.delete_complete_nodes i b rs re).original = t.original := by
  unfold PieceTable.delete_complete_nodes
  split <;> rfl

theorem delete_complete_nodes_added (t : PieceTable) (i b rs re : Nat) :
    (t.delete_complete_nodes i b rs re).added = t.added := by
  unfold PieceTable.delete_complete_nodes
  split <;> rfl

theorem delete_original (t : PieceTable) (rs re : Nat) :
    (t.delete rs re).original = t.original := by
  unfold PieceTable.delete
  simp only []
  split
  case h_2 => rfl
  case h_1 p s b heq =>
    split
    case h_2 => exact delete_complete_nodes_original t s b rs re
    case h_1 node hnode =>
      split_ifs <;>
        simp [split_node_original, delete_complete_nodes_original]

theorem delete_added (t : PieceTable) (rs re : Nat) :
    (t.delete rs re).added = t.added := by
  unfold PieceTable.delete
  simp only []
  split
  case h_2 => rfl
  case h_1 p s b heq =>
    split
    case h_2 => exact delete_complete_nodes_added t s b rs re
    case h_1 node hnode =>
      split_ifs <;>
        simp [split_node_added, delete_complete_nodes_added]

theorem wf_delete {t : PieceTable} (hwf : t.Wf) (rs re : Nat) :
    (t.delete rs re).Wf := by
  unfold PieceTable.delete
  show NodesInBounds _ _ _
  simp only []
  split
  case h_2 => exact hwf
  case h_1 p s b heq =>
    have hwd : (t.delete_complete_nodes s b rs re).Wf :=
      wf_delete_complete_nodes hwf s b rs re
    split
    case h_2 => exact hwd
    case h_1 node hnode =>
      split_ifs with hg hsp
      · -- split happened, then the front half is shrunk in place
        have hws : ((t.delete_complete_nodes s b rs re).split_node s (re - b)).1.Wf :=
          wf_split_node hwd s (re - b)
        have horig := split_node_original (t.delete_complete_nodes s b rs re) s (re - b)
        have hadd := split_node_added (t.delete_complete_nodes s b rs re) s (re - b)
        rw [delete_complete_nodes_original] at horig
        rw [delete_complete_nodes_added] at hadd
        rw [PieceTable.Wf, horig, hadd] at hws
        show NodesInBounds _ _ _
        simp only []
        rw [horig, hadd]
        intro n hn
        rcases List.mem_or_eq_of_mem_set hn with hn' | rfl
        · exact hws n hn'
        · have h0 : (((t.delete_complete_nodes s b rs re).split_node s (re - b)).1.nodes.getD s
              { kind := NodeKind.Original, start := 0, rangeEnd := 0 }).InBounds t.original t.added := by
            have := @getD_inBounds t.original t.added
              (((t.delete_complete_nodes s b rs re).split_node s (re - b)).1.nodes) hws s
            exact this
          exact inBounds_of_le h0 rfl (Nat.sub_le _ _)
      · have hws := wf_split_node hwd s (re - b)
        have horig := split_node_original (t.delete_complete_nodes s b rs re) s (re - b)
        have hadd := split_node_added (t.delete_complete_nodes s b rs re) s (re - b)
        rw [delete_complete_nodes_original] at horig
        rw [delete_complete_nodes_added] at hadd
        rw [PieceTable.Wf, horig, hadd] at hws
        show NodesInBounds _ _ _
        rw [horig, hadd]
        exact hws
      · exact hwd

theorem insert_original (t : PieceTable) (data : List Nat) (offset : Nat) :
    (t.insert data offset).original = t.original := by
  unfold PieceTable.insert
  simp only []
  split
  case h_2 => rfl
  case h_1 p nodeIdx nodePos heq =>
    exact split_node_original { t with added := t.added ++ data } nodeIdx (offset - nodePos)

theorem insert_added (t : PieceTable) (data : List Nat) (offset : Nat) :
    (t.insert data offset).added = t.added ++ data := by
  unfold PieceTable.insert
  simp only []
  split
  case h_2 => rfl
  case h_1 p nodeIdx nodePos heq =>
    exact split_node_added { t with added := t.added ++ data } nodeIdx (offset - nodePos)

theorem replace_original (t : PieceTable) (data : List Nat) (offset : Nat) :
    (t.replace data offset).original = t.original := by
  unfold PieceTable.replace
  rw [insert_original, delete_original]

theorem replace_added (t : PieceTable) (data : List Nat) (offset : Nat) :
    (t.replace data offset).added = t.added ++ data := by
  unfold PieceTable.replace
  rw [insert_added, delete_added]

theorem wf_replace {t : PieceTable} (hwf : t.Wf) (data : List Nat) (offset : Nat) :
    (t.replace data offset).Wf :=
  wf_insert (wf_delete hwf _ _) data offset

theorem wf_applyOp {t : PieceTable} (hwf : t.Wf) (op : Op) : (applyOp t op).Wf := by
  cases op with
  | ins d o => exact wf_insert hwf d o
  | del a b => exact wf_delete hwf a b
  | rep d o => exact wf_replace hwf d o

theorem applyOp_original (t : PieceTable) (op : Op) :
    (applyOp t op).original = t.original := by
  cases op with
  | ins d o => exact insert_original t d o
  | del a b => exact delete_original t a b
  | rep d o => exact replace_original t d o

theorem applyOp_added_extends (t : PieceTable) (op : Op) :
    ∃ ext, (applyOp t op).added = t.added ++ ext := by
  cases op with
  | ins d o => exact ⟨d, insert_added t d o⟩
  | del a b => exact ⟨[], by rw [applyOp, delete_added, List.append_nil]⟩
  | rep d o => exact ⟨d, replace_added t d o⟩

theorem wf_applyOps {t : PieceTable} (hwf : t.Wf) (ops : List Op) :
    (applyOps t ops).Wf := by
  induction ops generalizing t with
  | nil => exact hwf
  | cons op rest ih => exact ih (wf_applyOp hwf op)

theorem applyOps_original (t : PieceTable) (ops : List Op) :
    (applyOps t ops).original = t.original := by
  induction ops generalizing t with
  | nil => rfl
  | cons op rest ih => rw [applyOps, ih, applyOp_original]

theorem applyOps_added_extends (t : PieceTable) (ops : List Op) :
    ∃ ext, (applyOps t ops).added = t.added ++ ext := by
  induction ops generalizing t with
  | nil => exact ⟨[], by simp [applyOps]⟩
  | cons op rest ih =>
    obtain ⟨e1, he1⟩ := applyOp_added_extends t op
    obtain ⟨e2, he2⟩ := ih (applyOp t op)
    exact ⟨e1 ++ e2, by rw [applyOps, he2, he1, List.append_assoc]⟩

theorem wf_new (s : List Nat) : (PieceTable.new s).Wf := by
  intro n hn
  simp only [PieceTable.new, List.mem_singleton] at hn
  subst hn
  unfold Node.InBounds Node.buf
  simp [PieceTable.new]

/-! ### Nodes produced by the slice walk are clipped copies of table nodes -/

theorem sliceWalk_derived {rs re : Nat} (ns : List Node) :
    ∀ (byteIdx : Nat) (found : Bool),
      ∀ n' ∈ PieceTable.sliceWalk rs re ns byteIdx found,
        ∃ n ∈ ns, n'.kind = n.kind ∧ n'.rangeEnd ≤ n.rangeEnd := by
  induction ns with
  | nil =>
    intro byteIdx found n' hn'
    simp [PieceTable.sliceWalk] at hn'
  | cons n rest ih =>
    intro byteIdx found n' hn'
    simp only [PieceTable.sliceWalk] at hn'
    by_cases hint : byteIdx + n.len > rs ∧ byteIdx < re
    · rw [if_pos hint] at hn'
      cases found with
      | true =>
        simp only [if_true] at hn'
        by_cases hend : byteIdx + n.len < re
        · rw [if_pos hend] at hn'
          rcases List.mem_cons.mp hn' with rfl | hn''
          · exact ⟨n', List.mem_cons_self n' rest, rfl, le_refl _⟩
          · obtain ⟨m, hm, hk, he⟩ := ih _ _ _ hn''
            exact ⟨m, List.mem_cons_of_mem n hm, hk, he⟩
        · rw [if_neg hend] at hn'
          rcases List.mem_singleton.mp hn' with rfl
          exact ⟨n, List.mem_cons_self n rest, rfl, Nat.sub_le _ _⟩
      | false =>
        simp only [if_false, Bool.false_eq_true] at hn'
        by_cases hend : byteIdx + n.len ≥ re
        · rw [if_pos hend] at hn'
          rcases List.mem_cons.mp hn' with rfl | hn''
          · exact ⟨n, List.mem_cons_self n rest, rfl, Nat.sub_le _ _⟩
          · obtain ⟨m, hm, hk, he⟩ := ih _ _ _ hn''
            exact ⟨m, List.mem_cons_of_mem n hm, hk, he⟩
        · rw [if_neg hend] at hn'
          rcases List.mem_cons.mp hn' with rfl | hn''
          · exact ⟨n, List.mem_cons_self n rest, rfl, le_refl _⟩
          · obtain ⟨m, hm, hk, he⟩ := ih _ _ _ hn''
            exact ⟨m, List.mem_cons_of_mem n hm, hk, he⟩
    · rw [if_neg hint] at hn'
      obtain ⟨m, hm, hk, he⟩ := ih _ _ _ hn'
      exact ⟨m, List.mem_cons_of_mem n hm, hk, he⟩

theorem nodesInBounds_sliceWalk {original added : List Nat} {ns : List Node}
    (h : NodesInBounds original added ns) (rs re byteIdx : Nat) (found : Bool) :
    NodesInBounds original added (PieceTable.sliceWalk rs re ns byteIdx found) := by
  intro n' hn'
  obtain ⟨m, hm, hk, he⟩ := sliceWalk_derived ns byteIdx found n' hn'
  exact inBounds_of_le (h m hm) hk he

/-! ### The slice walks compute byte-range extraction of the rendered text -/

theorem Node.len_mk (k : NodeKind) (s e : Nat) : (Node.mk k s e).len = e - s := rfl

theorem nodeText_mk (original added : List Nat) (n : Node) (s e : Nat) :
    nodeText original added (Node.mk n.kind s e) =
      ((n.buf original added).drop s).take (e - s) := by
  rcases n with ⟨k, s0, e0⟩
  cases k <;> rfl

theorem take_drop_congr {α : Type} (l : List α) {a b c d : Nat} (hab : a = b) (hcd : c = d) :
    (l.drop a).take c = (l.drop b).take d := by rw [hab, hcd]

theorem nodeText_drop_take (original added : List Nat) (n : Node) (u w : Nat) :
    ((nodeText original added n).drop u).take w =
      ((n.buf original added).drop (u + n.start)).take (min w (n.len - u)) := by
  rw [nodeText_eq_buf, List.drop_take, List.drop_drop, List.take_take]
  exact take_drop_congr _ (by omega) rfl

theorem nodeText_take (original added : List Nat) (n : Node) (w : Nat) :
    (nodeText original added n).take w =
      ((n.buf original added).drop n.start).take (min w n.len) := by
  rw [nodeText_eq_buf, List.take_take]

theorem sliceWalk_past {rs re : Nat} (ns : List Node) :
    ∀ byteIdx, re ≤ byteIdx → PieceTable.sliceWalk rs re ns byteIdx false = [] := by
  induction ns with
  | nil => intro b _; rfl
  | cons n rest ih =>
    intro b hb
    simp only [PieceTable.sliceWalk]
    rw [if_neg (by omega : ¬(b + n.len > rs ∧ b < re))]
    exact ih _ (by omega)

theorem renderNodes_sliceWalk_true (original added : List Nat) {rs re : Nat} (ns : List Node) :
    ∀ byteIdx, NodesInBounds original added ns → rs ≤ byteIdx →
      renderNodes original added (PieceTable.sliceWalk rs re ns byteIdx true) =
        (renderNodes original added ns).take (re - byteIdx) := by
  induction ns with
  | nil => intro b _ _; simp [PieceTable.sliceWalk, renderNodes_nil]
  | cons n rest ih =>
    intro b hnb hrs
    have hn : n.InBounds original added := hnb n (List.mem_cons_self n rest)
    have hrest : NodesInBounds original added rest :=
      fun m hm => hnb m (List.mem_cons_of_mem n hm)
    have hlenA : (nodeText original added n).length = n.len := length_nodeText original added hn
    have hnl : n.len = n.rangeEnd - n.start := rfl
    simp only [PieceTable.sliceWalk, renderNodes_cons]
    by_cases hint : b + n.len > rs ∧ b < re
    · rw [if_pos hint]
      simp only [if_true]
      by_cases hend : b + n.len < re
      · rw [if_pos hend]
        rw [renderNodes_cons, ih _ hrest (by omega)]
        rw [List.take_append_eq_append_take, hlenA]
        rw [List.take_of_length_le (by omega : (nodeText original added n).length ≤ re - b)]
        congr 2
        omega
      · rw [if_neg hend]
        rw [renderNodes_cons, renderNodes_nil, List.append_nil]
        rw [List.take_append_eq_append_take, hlenA]
        rw [Nat.sub_eq_zero_of_le (by omega : re - b ≤ n.len), List.take_zero, List.append_nil]
        rw [nodeText_mk, nodeText_take]
        exact take_drop_congr _ rfl (by omega)
    · rw [if_neg hint]
      by_cases hA : b + n.len > rs
      · have hre : re ≤ b := by omega
        rw [ih _ hrest (by omega)]
        rw [Nat.sub_eq_zero_of_le (by omega : re ≤ b + n.len), List.take_zero]
        rw [Nat.sub_eq_zero_of_le (by omega : re ≤ b), List.take_zero]
      · have hlen0 : n.len = 0 := by omega
        rw [ih _ hrest (by omega)]
        have hnilA : nodeText original added n = [] :=
          List.eq_nil_of_length_eq_zero (by rw [hlenA, hlen0])
        rw [hnilA, List.nil_append, hlen0, Nat.add_zero]

theorem renderNodes_sliceWalk_false (original added : List Nat) {rs re : Nat} (ns : List Node) :
    ∀ byteIdx, NodesInBounds original added ns → byteIdx ≤ rs →
      renderNodes original added (PieceTable.sliceWalk rs re ns byteIdx false) =
        ((renderNodes original added ns).drop (rs - byteIdx)).take (re - rs) := by
  induction ns with
  | nil => intro b _ _; simp [PieceTable.sliceWalk, renderNodes_nil]
  | cons n rest ih =>
    intro b hnb hbs
    have hn : n.InBounds original added := hnb n (List.mem_cons_self n rest)
    have hrest : NodesInBounds original added rest :=
      fun m hm => hnb m (List.mem_cons_of_mem n hm)
    have hlenA : (nodeText original added n).length = n.len := length_nodeText original added hn
    have hnl : n.len = n.rangeEnd - n.start := rfl
    simp only [PieceTable.sliceWalk, renderNodes_cons]
    by_cases hint : b + n.len > rs ∧ b < re
    · rw [if_pos hint]
      rw [if_neg (show ¬(false = true) by simp)]
      by_cases hend : b + n.len ≥ re
      · rw [if_pos hend]
        rw [renderNodes_cons, renderNodes_sliceWalk_true original added rest _ hrest (by omega)]
        rw [Nat.sub_eq_zero_of_le (by omega : re ≤ b + n.len), List.take_zero, List.append_nil]
        rw [List.drop_append_eq_append_drop, hlenA]
        rw [Nat.sub_eq_zero_of_le (by omega : rs - b ≤ n.len), List.drop_zero]
        rw [List.take_append_eq_append_take, List.length_drop, hlenA]
        rw [Nat.sub_eq_zero_of_le (by omega : re - rs ≤ n.len - (rs - b)), List.take_zero,
          List.append_nil]
        rw [nodeText_mk, nodeText_drop_take]
        exact take_drop_congr _ (by omega) (by omega)
      · rw [if_neg hend]
        rw [renderNodes_cons, renderNodes_sliceWalk_true original added rest _ hrest (by omega)]
        rw [List.drop_append_eq_append_drop, hlenA]
        rw [Nat.sub_eq_zero_of_le (by omega : rs - b ≤ n.len), List.drop_zero]
        rw [List.take_append_eq_append_take, List.length_drop, hlenA]
        rw [List.take_of_length_le
          (by rw [List.length_drop, hlenA]; omega :
            ((nodeText original added n).drop (rs - b)).length ≤ re - rs)]
        congr 1
        · rw [nodeText_mk, ← List.take_length ((nodeText original added n).drop (rs - b)),
            List.length_drop, hlenA, nodeText_drop_take]
          exact take_drop_congr _ (by omega) (by omega)
        · congr 1
          omega
    · rw [if_neg hint]
      by_cases hA : b + n.len > rs
      · have hre : re ≤ b := by omega
        rw [sliceWalk_past rest _ (by omega), renderNodes_nil]
        rw [Nat.sub_eq_zero_of_le (by omega : re ≤ rs), List.take_zero]
      · rw [ih _ hrest (by omega)]
        rw [List.drop_append_eq_append_drop, hlenA]
        rw [List.drop_eq_nil_of_le
          (by rw [hlenA]; omega : (nodeText original added n).length ≤ rs - b), List.nil_append]
        congr 2
        omega

/-- L1: the table's `slice(range)` walk renders exactly the byte-range
extraction of the table's rendered text. -/
theorem renderSlice_slice (t : PieceTable) (a b : Nat) (hwf : t.Wf) :
    renderSlice (t.slice a b) t.original t.added = ((t.render).drop a).take (b - a) := by
  show renderNodes t.original t.added (PieceTable.sliceWalk a b t.nodes 0 false) = _
  rw [renderNodes_sliceWalk_false t.original t.added t.nodes 0 hwf (Nat.zero_le a)]
  rw [Nat.sub_zero]
  rfl

theorem usizeSub_eq {a b : Nat} (h : b ≤ a) (ha : a < 2 ^ 64) : usizeSub a b = a - b := by
  unfold usizeSub
  rw [Nat.mod_eq_of_lt (show b < 2 ^ 64 by omega)]
  have he : a + (2 ^ 64 - b) = (a - b) + 2 ^ 64 := by omega
  rw [he, Nat.add_mod_right, Nat.mod_eq_of_lt (by omega)]

theorem renderNodes_sliceWalkS (original added : List Nat) {c : Nat} (ns : List Node) :
    ∀ byteIdx rem, NodesInBounds original added ns →
      renderNodes original added (PTableSlice.sliceWalkS c ns byteIdx rem) =
        ((renderNodes original added ns).drop (c - byteIdx)).take rem := by
  induction ns with
  | nil => intro b r _; simp [PTableSlice.sliceWalkS, renderNodes_nil]
  | cons n rest ih =>
    intro b rem hnb
    have hn : n.InBounds original added := hnb n (List.mem_cons_self n rest)
    have hrest : NodesInBounds original added rest :=
      fun m hm => hnb m (List.mem_cons_of_mem n hm)
    have hlenA : (nodeText original added n).length = n.len := length_nodeText original added hn
    have hnl : n.len = n.rangeEnd - n.start := rfl
    simp only [PTableSlice.sliceWalkS, renderNodes_cons]
    by_cases hc : b + n.len > c
    · rw [if_pos hc]
      by_cases hsmall : rem < n.len - (c - b)
      · rw [if_pos hsmall]
        by_cases hrem : rem = 0
        · rw [if_neg (by omega : ¬(c - b < c - b + rem))]
          rw [if_pos hrem, renderNodes_nil, hrem, List.take_zero]
        · rw [if_pos (by omega : c - b < c - b + rem)]
          rw [if_pos (by omega : rem - (c - b + rem - (c - b)) = 0)]
          rw [renderNodes_cons, renderNodes_nil, List.append_nil]
          rw [List.drop_append_eq_append_drop, hlenA]
          rw [Nat.sub_eq_zero_of_le (by omega : c - b ≤ n.len), List.drop_zero]
          rw [List.take_append_eq_append_take, List.length_drop, hlenA]
          rw [Nat.sub_eq_zero_of_le (by omega : rem ≤ n.len - (c - b)), List.take_zero,
            List.append_nil]
          rw [nodeText_mk, nodeText_drop_take]
          exact take_drop_congr _ (by omega) (by omega)
      · rw [if_neg hsmall]
        by_cases hpos : c - b < n.len
        · rw [if_pos hpos]
          by_cases hrem0 : rem - (n.len - (c - b)) = 0
          · rw [if_pos hrem0]
            rw [renderNodes_cons, renderNodes_nil, List.append_nil]
            rw [List.drop_append_eq_append_drop, hlenA]
            rw [Nat.sub_eq_zero_of_le (by omega : c - b ≤ n.len), List.drop_zero]
            rw [List.take_append_eq_append_take, List.length_drop, hlenA]
            rw [Nat.sub_eq_zero_of_le (by omega : rem ≤ n.len - (c - b)), List.take_zero,
              List.append_nil]
            rw [nodeText_mk, nodeText_drop_take]
            exact take_drop_congr _ (by omega) (by omega)
          · rw [if_neg hrem0]
            rw [renderNodes_cons, ih _ _ hrest]
            rw [Nat.sub_eq_zero_of_le (by omega : c ≤ b + n.len), List.drop_zero]
            rw [List.drop_append_eq_append_drop, hlenA]
            rw [Nat.sub_eq_zero_of_le (by omega : c - b ≤ n.len), List.drop_zero]
            rw [List.take_append_eq_append_take, List.length_drop, hlenA]
            rw [List.take_of_length_le
              (by rw [List.length_drop, hlenA]; omega :
                ((nodeText original added n).drop (c - b)).length ≤ rem)]
            congr 1
            rw [nodeText_mk, ← List.take_length ((nodeText original added n).drop (c - b)),
              List.length_drop, hlenA, nodeText_drop_take]
            exact take_drop_congr _ (by omega) (by omega)
        · -- nothing of the node lies in front of the offset: the node is empty here
          rw [if_neg hpos]
          have hlen0 : n.len = 0 ∧ c ≤ b := by omega
          have hnilA : nodeText original added n = [] :=
            List.eq_nil_of_length_eq_zero (by rw [hlenA, hlen0.1])
          by_cases hrem : rem = 0
          · rw [if_pos hrem, renderNodes_nil, hrem, List.take_zero]
          · rw [if_neg hrem]
            rw [ih _ _ hrest, hnilA, List.nil_append]
            exact take_drop_congr _ (by omega) rfl
    · rw [if_neg hc]
      by_cases hrem : rem = 0
      · rw [if_pos hrem, renderNodes_nil, hrem, List.take_zero]
      · rw [if_neg hrem]
        rw [ih _ _ hrest]
        rw [List.drop_append_eq_append_drop, hlenA]
        rw [List.drop_eq_nil_of_le
          (by rw [hlenA]; omega : (nodeText original added n).length ≤ c - b), List.nil_append]
        exact take_drop_congr _ (by omega) rfl

/-- L2: `PTableSlice::slice` renders exactly the byte-range extraction of the
slice's rendered text, an absent result rendering as the empty text. -/
theorem renderOptSlice_reslice (sl : PTableSlice) (c d : Nat) (original added : List Nat)
    (hnb : NodesInBounds original added sl.nodes) (hcd : c ≤ d) (hd : d < 2 ^ 64) :
    renderOptSlice (sl.slice c d) original added =
      ((renderSlice sl original added).drop c).take (d - c) := by
  unfold PTableSlice.slice renderOptSlice
  rw [usizeSub_eq hcd hd]
  by_cases he : (PTableSlice.sliceWalkS c sl.nodes 0 (d - c)).isEmpty
  · simp only [if_pos he]
    have h0 : renderNodes original added (PTableSlice.sliceWalkS c sl.nodes 0 (d - c)) = [] := by
      rw [List.isEmpty_iff] at he
      rw [he, renderNodes_nil]
    have h1 := renderNodes_sliceWalkS original added (c := c) sl.nodes 0 (d - c) hnb
    rw [h0] at h1
    exact h1
  · simp only [if_neg he]
    show renderNodes original added (PTableSlice.sliceWalkS c sl.nodes 0 (d - c)) = _
    rw [renderNodes_sliceWalkS original added sl.nodes 0 (d - c) hnb]
    rfl

/-! ### Refinement of the bit-packed tag array to a plain list -/

namespace NKV

/-- Bit `i` of the packed array, read like `get` does (word `i / 64`, bit
`i % 64`), for any `i`. -/
def tb (v : NodeKindVec) (i : Nat) : Bool :=
  Nat.testBit (v.inner.getD (i / 64) 0) (i % 64)

/-- Abstraction: the plain list the packed vector represents. -/
def toList (v : NodeKindVec) : List NodeKind :=
  (List.range v.len).map (fun i => kindOfBit (tb v i))

/-- Representation invariant: the word count matches `⌈len / 64⌉` and every
word is a 64-bit value. -/
def Inv (v : NodeKindVec) : Prop :=
  v.inner.length = (v.len + 63) / 64 ∧ ∀ w ∈ v.inner, w < 2 ^ 64

theorem length_toList (v : NodeKindVec) : (toList v).length = v.len := by
  simp [toList]

theorem getD_eq_pos {l : List Nat} {i : Nat} (h : i < l.length) : l.getD i 0 = l[i] := by
  simp [List.getD_eq_getElem?_getD, List.getElem?_eq_getElem h]

theorem beq_one_eq_testBit (w o : Nat) : ((((w >>> o) &&& 1) == 1)) = Nat.testBit w o := by
  rw [Nat.testBit_to_div_mod, Nat.and_one_is_mod, Nat.shiftRight_eq_div_pow]
  by_cases h : w / 2 ^ o % 2 = 1 <;> simp [h]

theorem get_eq_toList (v : NodeKindVec) (i : Nat) : get v i = (toList v)[i]? := by
  unfold get offset
  by_cases h : v.len ≤ i
  · rw [if_pos h]
    rw [List.getElem?_eq_none (by rw [length_toList]; omega)]
  · rw [if_neg h]
    rw [List.getElem?_eq_getElem (by rw [length_toList]; omega : i < (toList v).length)]
    simp only [toList, List.getElem_map, List.getElem_range]
    rw [beq_one_eq_testBit]
    rfl

theorem kindOfBit_decide (k : NodeKind) :
    kindOfBit (decide (k = NodeKind.Original)) = k := by
  cases k <;> rfl

/-- The word index of a bit position inside the array is a valid index. -/
theorem word_lt {v : NodeKindVec} (hInv : Inv v) {i : Nat} (hi : i < v.len) :
    i / 64 < v.inner.length := by
  rw [hInv.1]
  omega

theorem testBit_one_shift (o b : Nat) :
    Nat.testBit (1 <<< o) b = decide (b = o) := by
  rw [Nat.testBit_shiftLeft]
  by_cases h : o ≤ b
  · rw [decide_eq_true h, Bool.true_and]
    have h1 : Nat.testBit 1 (b - o) = decide (b - o < 1) :=
      Nat.testBit_two_pow_sub_one 1 (b - o)
    rw [h1]
    by_cases he : b = o
    · simp [he]
    · have : ¬(b - o < 1) := by omega
      simp [this, he]
  · rw [decide_eq_false h, Bool.false_and]
    have : ¬(b = o) := by omega
    simp [this]

/-- Effect of `set` on the bits. -/
theorem testBit_and_not_self (w o : Nat) (ho : o < 64) :
    Nat.testBit (w &&& (1 <<< o ^^^ (2 ^ 64 - 1))) o = false := by
  rw [Nat.testBit_land, Nat.testBit_xor, testBit_one_shift, Nat.testBit_two_pow_sub_one]
  simp [ho]

theorem testBit_and_not_other (w o b : Nat) (hb : b < 64) (hne : b ≠ o) :
    Nat.testBit (w &&& (1 <<< o ^^^ (2 ^ 64 - 1))) b = Nat.testBit w b := by
  rw [Nat.testBit_land, Nat.testBit_xor, testBit_one_shift, Nat.testBit_two_pow_sub_one]
  simp [hb, hne]

theorem tb_set {v : NodeKindVec} (hInv : Inv v) {idx : Nat} (hidx : idx < v.len)
    (k : NodeKind) (i : Nat) :
    tb (set v idx k) i = if i = idx then decide (k = NodeKind.Original) else tb v i := by
  unfold set offset
  rw [if_neg (by omega : ¬v.len ≤ idx)]
  simp only []
  unfold tb
  simp only []
  by_cases hw : i / 64 = idx / 64
  · rw [hw]
    have hlt : idx / 64 < v.inner.length := word_lt hInv hidx
    have hset : (v.inner.set (idx / 64) (if k = NodeKind.Original
        then v.inner.getD (idx / 64) 0 ||| 1 <<< (idx % 64)
        else v.inner.getD (idx / 64) 0 &&& (1 <<< (idx % 64) ^^^ (2 ^ 64 - 1)))).getD (idx / 64) 0 =
        (if k = NodeKind.Original
        then v.inner.getD (idx / 64) 0 ||| 1 <<< (idx % 64)
        else v.inner.getD (idx / 64) 0 &&& (1 <<< (idx % 64) ^^^ (2 ^ 64 - 1))) := by
      rw [List.getD_eq_getElem?_getD, List.getElem?_set]
      rw [if_pos rfl, if_pos hlt]
      rfl
    rw [hset]
    have hbo : (i % 64 = idx % 64) ↔ i = idx := by omega
    cases k with
    | Original =>
      rw [if_pos rfl]
      rw [Nat.testBit_lor, testBit_one_shift]
      by_cases he : i = idx
      · rw [if_pos he]
        have h1 : i % 64 = idx % 64 := by omega
        simp [h1]
      · rw [if_neg he]
        have h1 : ¬(i % 64 = idx % 64) := by omega
        simp [h1, hw]
    | Added =>
      rw [if_neg (by intro hcon; cases hcon)]
      by_cases he : i = idx
      · rw [if_pos he]
        have h1 : i % 64 = idx % 64 := by omega
        rw [h1, testBit_and_not_self _ _ (by omega)]
        rfl
      · rw [if_neg he]
        rw [testBit_and_not_other _ _ _ (by omega) (by omega)]
  · have hne : i ≠ idx := by omega
    rw [if_neg hne]
    have hset : ∀ x, (v.inner.set (idx / 64) x).getD (i / 64) 0 = v.inner.getD (i / 64) 0 := by
      intro x
      rw [List.getD_eq_getElem?_getD, List.getElem?_set, if_neg (by omega : ¬idx / 64 = i / 64)]
      rw [List.getD_eq_getElem?_getD]
    split <;> rw [hset]

theorem Inv_set {v : NodeKindVec} (hInv : Inv v) (idx : Nat) (k : NodeKind) :
    Inv (set v idx k) := by
  unfold set offset
  by_cases h : v.len ≤ idx
  · rw [if_pos h]
    exact hInv
  · rw [if_neg h]
    constructor
    · simp only [List.length_set]
      exact hInv.1
    · intro w hw
      rcases List.mem_or_eq_of_mem_set hw with hw' | rfl
      · exact hInv.2 w hw'
      · have hlt : idx / 64 < v.inner.length := word_lt hInv (by omega)
        have hword : v.inner.getD (idx / 64) 0 < 2 ^ 64 := by
          rw [getD_eq_pos hlt]
          exact hInv.2 _ (List.getElem_mem hlt)
        split
        · exact Nat.bitwise_lt_two_pow hword (by
            have : (1 <<< (idx % 64)) = 2 ^ (idx % 64) := by
              rw [Nat.shiftLeft_eq, Nat.one_mul]
            rw [this]
            exact Nat.pow_lt_pow_right (by omega) (by omega))
        · calc v.inner.getD (idx / 64) 0 &&& (1 <<< (idx % 64) ^^^ (2 ^ 64 - 1)) ≤
              v.inner.getD (idx / 64) 0 := Nat.and_le_left
            _ < 2 ^ 64 := hword

theorem set_len (v : NodeKindVec) (idx : Nat) (k : NodeKind) :
    (set v idx k).len = v.len := by
  unfold set offset
  split
  · rfl
  · rfl

theorem tb_increment_len {v : NodeKindVec} (hInv : Inv v) {i : Nat} (hi : i < v.len) :
    tb (increment_len v) i = tb v i := by
  unfold tb increment_len
  simp only []
  split
  · rw [List.getD_eq_getElem?_getD, List.getElem?_append]
    rw [if_pos (by rw [hInv.1]; omega : i / 64 < v.inner.length)]
    rw [List.getD_eq_getElem?_getD]
  · rfl

theorem Inv_increment_len {v : NodeKindVec} (hInv : Inv v) : Inv (increment_len v) := by
  unfold increment_len
  constructor
  · simp only []
    split
    · rename_i h
      simp only [List.length_append, List.length_singleton, hInv.1]
      omega
    · rename_i h
      simp only [hInv.1]
      omega
  · intro w hw
    simp only [] at hw
    split at hw
    · rcases List.mem_append.mp hw with hw' | hw'
      · exact hInv.2 w hw'
      · rw [List.mem_singleton.mp hw']
        exact Nat.pos_pow_of_pos 64 (by omega)
    · exact hInv.2 w hw

theorem increment_len_len (v : NodeKindVec) : (increment_len v).len = v.len + 1 := rfl

theorem toList_push_back {v : NodeKindVec} (hInv : Inv v) (k : NodeKind) :
    toList (push_back v k) = toList v ++ [k] ∧ Inv (push_back v k) ∧
      (push_back v k).len = v.len + 1 := by
  unfold push_back
  simp only []
  have hInv1 : Inv (increment_len v) := Inv_increment_len hInv
  have hlen1 : (increment_len v).len = v.len + 1 := rfl
  have hidx : v.len + 1 - 1 < (increment_len v).len := by
    rw [hlen1]; omega
  refine ⟨?_, Inv_set hInv1 _ k, by rw [set_len, hlen1]⟩
  unfold toList
  rw [set_len, hlen1]
  have hrs : List.range (v.len + 1) = List.range v.len ++ [v.len] := by
    simp [List.range_succ]
  rw [hrs, List.map_append]
  congr 1
  · apply List.map_congr_left
    intro i hi
    have hi' : i < v.len := List.mem_range.mp hi
    rw [tb_set hInv1 hidx k]
    rw [if_neg (by omega : ¬i = v.len + 1 - 1)]
    rw [tb_increment_len hInv hi']
  · simp only [List.map_cons, List.map_nil]
    rw [tb_set hInv1 hidx k]
    rw [if_pos (by omega : v.len = v.len + 1 - 1)]
    rw [kindOfBit_decide]

theorem getD_set_ne {l : List Nat} {a j : Nat} (x : Nat) (h : a ≠ j) :
    (l.set a x).getD j 0 = l.getD j 0 := by
  rw [List.getD_eq_getElem?_getD, List.getElem?_set, if_neg h, List.getD_eq_getElem?_getD]

theorem getD_set_eq {l : List Nat} {a : Nat} (x : Nat) (h : a < l.length) :
    (l.set a x).getD a 0 = x := by
  rw [List.getD_eq_getElem?_getD, List.getElem?_set, if_pos rfl, if_pos h]
  rfl

theorem getD_lt_two_pow {l : List Nat} (h : ∀ w ∈ l, w < 2 ^ 64) (i : Nat) :
    l.getD i 0 < 2 ^ 64 := by
  by_cases hi : i < l.length
  · rw [getD_eq_pos hi]
    exact h _ (List.getElem_mem hi)
  · rw [List.getD_eq_getElem?_getD, List.getElem?_eq_none (by omega)]
    exact Nat.pos_pow_of_pos 64 (by omega)

theorem carry_lt_two_pow {cur nxt : Nat} (hc : cur < 2 ^ 64) :
    ((cur >>> 63) ||| ((nxt <<< 1) % 2 ^ 64)) < 2 ^ 64 := by
  apply Nat.bitwise_lt_two_pow
  · rw [Nat.shiftRight_eq_div_pow]
    calc cur / 2 ^ 63 < 2 := by omega
      _ ≤ 2 ^ 64 := by omega
  · exact Nat.mod_lt _ (by omega)

theorem testBit_carry (cur nxt : Nat) (hc : cur < 2 ^ 64) (b : Nat) (hb : b < 64) :
    Nat.testBit ((cur >>> 63) ||| ((nxt <<< 1) % 2 ^ 64)) b =
      if b = 0 then cur.testBit 63 else nxt.testBit (b - 1) := by
  rw [Nat.testBit_lor, Nat.testBit_mod_two_pow, Nat.testBit_shiftLeft, Nat.testBit_shiftRight]
  by_cases h0 : b = 0
  · subst h0
    simp
  · rw [if_neg h0]
    have h1 : cur < 2 ^ (63 + b) :=
      lt_of_lt_of_le hc (Nat.pow_le_pow_right (by omega) (by omega))
    rw [Nat.testBit_lt_two_pow h1]
    have hle : 1 ≤ b := by omega
    simp [hb, hle]

/-- Bit-level effect of the in-word mask step of `shift_right`
(`(word & !mask) | ((word & mask) << 1)` with `mask = usize::MAX << so`). -/
theorem testBit_maskStep (word so b : Nat) (hso : so < 64) (hb : b < 64) :
    Nat.testBit ((word &&& ((((2 ^ 64 - 1) <<< so) % 2 ^ 64) ^^^ (2 ^ 64 - 1))) |||
        (((word &&& (((2 ^ 64 - 1) <<< so) % 2 ^ 64)) <<< 1) % 2 ^ 64)) b =
      if b < so then word.testBit b else if b = so then false else word.testBit (b - 1) := by
  have hmask : ∀ t, t < 64 →
      Nat.testBit (((2 ^ 64 - 1) <<< so) % 2 ^ 64) t = decide (so ≤ t) := by
    intro t ht
    rw [Nat.testBit_mod_two_pow, Nat.testBit_shiftLeft, Nat.testBit_two_pow_sub_one]
    by_cases hs : so ≤ t
    · have h1 : t - so < 64 := by omega
      simp [ht, hs, h1, ge_iff_le]
    · simp [ht, hs, ge_iff_le]
  have hnot : ∀ t, t < 64 →
      Nat.testBit ((((2 ^ 64 - 1) <<< so) % 2 ^ 64) ^^^ (2 ^ 64 - 1)) t = decide (t < so) := by
    intro t ht
    rw [Nat.testBit_xor, hmask t ht, Nat.testBit_two_pow_sub_one]
    by_cases hs : so ≤ t
    · have h1 : ¬t < so := by omega
      simp [hs, ht, h1]
    · have h1 : t < so := by omega
      simp [hs, ht, h1]
  rw [Nat.testBit_lor, Nat.testBit_land, hnot b hb, Nat.testBit_mod_two_pow,
    Nat.testBit_shiftLeft, Nat.testBit_land, hmask (b - 1) (by omega)]
  by_cases hlt : b < so
  · rw [if_pos hlt]
    have h1 : ¬so ≤ b - 1 := by omega
    simp [hb, hlt, h1, ge_iff_le]
  · rw [if_neg hlt]
    by_cases heq : b = so
    · rw [if_pos heq]
      by_cases hb1 : 1 ≤ b
      · have h1 : ¬so ≤ b - 1 := by omega
        simp [hlt, h1, ge_iff_le]
      · simp [hlt, hb1, ge_iff_le]
    · rw [if_neg heq]
      have hb1 : 1 ≤ b := by omega
      have h1 : so ≤ b - 1 := by omega
      simp [hb, hlt, hb1, h1, ge_iff_le]

/-- The descending carry loop of `shift_right`: words `sw+1 ..= sw+c` become
the carry combination of their left neighbour and themselves; everything else
is untouched. -/
theorem shiftWords_getD (sw : Nat) :
    ∀ (c : Nat) (inner : List Nat), sw + c < inner.length →
      ∀ j, (shiftWords inner sw c).getD j 0 =
        if sw + 1 ≤ j ∧ j ≤ sw + c then
          ((inner.getD (j - 1) 0) >>> 63) ||| (((inner.getD j 0) <<< 1) % 2 ^ 64)
        else inner.getD j 0 := by
  intro c
  induction c with
  | zero =>
    intro inner h j
    rw [shiftWords]
    rw [if_neg (by omega : ¬(sw + 1 ≤ j ∧ j ≤ sw + 0))]
  | succ c ih =>
    intro inner hlen j
    rw [shiftWords]
    rw [ih _ (by rw [List.length_set]; omega)]
    by_cases h1 : sw + 1 ≤ j ∧ j ≤ sw + c
    · rw [if_pos h1, if_pos (by omega : sw + 1 ≤ j ∧ j ≤ sw + (c + 1))]
      rw [getD_set_ne _ (by omega : sw + c + 1 ≠ j - 1)]
      rw [getD_set_ne _ (by omega : sw + c + 1 ≠ j)]
    · rw [if_neg h1]
      by_cases h2 : j = sw + c + 1
      · subst h2
        rw [getD_set_eq _ (by omega)]
        rw [if_pos (by omega : sw + 1 ≤ sw + c + 1 ∧ sw + c + 1 ≤ sw + (c + 1))]
        have : sw + c + 1 - 1 = sw + c := by omega
        rw [this]
      · rw [getD_set_ne _ (by omega : sw + c + 1 ≠ j)]
        rw [if_neg (by omega : ¬(sw + 1 ≤ j ∧ j ≤ sw + (c + 1)))]

theorem shiftWords_length (sw : Nat) :
    ∀ (c : Nat) (inner : List Nat), (shiftWords inner sw c).length = inner.length := by
  intro c
  induction c with
  | zero => intro inner; rfl
  | succ c ih =>
    intro inner
    rw [shiftWords]
    rw [ih, List.length_set]

theorem shiftWords_words_lt (sw : Nat) :
    ∀ (c : Nat) (inner : List Nat), (∀ w ∈ inner, w < 2 ^ 64) →
      ∀ w ∈ shiftWords inner sw c, w < 2 ^ 64 := by
  intro c
  induction c with
  | zero => intro inner h; exact h
  | succ c ih =>
    intro inner h
    rw [shiftWords]
    apply ih
    intro w hw
    rcases List.mem_or_eq_of_mem_set hw with hw' | rfl
    · exact h w hw'
    · exact carry_lt_two_pow (getD_lt_two_pow h _)

theorem increment_len_getD {v : NodeKindVec} (w : Nat) (hw : w < v.inner.length) :
    (increment_len v).inner.getD w 0 = v.inner.getD w 0 := by
  unfold increment_len
  simp only []
  split
  · rw [List.getD_eq_getElem?_getD, List.getElem?_append, if_pos hw, List.getD_eq_getElem?_getD]
  · rfl

/-- Full specification of `shift_right` at a valid index: the length grows by
one, the invariant is preserved, bits below `idx` are unchanged and bits above
`idx` (up to the new top) hold their former left neighbour. -/
theorem shift_right_spec {v : NodeKindVec} (hInv : Inv v) {idx : Nat} (hidx : idx < v.len) :
    (shift_right v idx).len = v.len + 1 ∧ Inv (shift_right v idx) ∧
      (∀ j, j < idx → tb (shift_right v idx) j = tb v j) ∧
      (∀ j, idx < j → j ≤ v.len → tb (shift_right v idx) j = tb v (j - 1)) := by
  have hInv1 : Inv (increment_len v) := Inv_increment_len hInv
  have hlen1 : (increment_len v).len = v.len + 1 := rfl
  have hW1 : (increment_len v).inner.length = (v.len + 1 + 63) / 64 := hInv1.1
  have hW0 : v.inner.length = (v.len + 63) / 64 := hInv.1
  have h1 : offset (increment_len v) idx = some (idx / 64, idx % 64) := by
    unfold offset
    rw [if_neg (by rw [hlen1]; omega)]
  have h2 : offset (increment_len v) ((increment_len v).len - 1) = some (v.len / 64, v.len % 64) := by
    unfold offset
    rw [if_neg (by rw [hlen1]; omega)]
    rfl
  unfold shift_right
  simp only []
  rw [h1, h2]
  simp only []
  by_cases hswew : idx / 64 = v.len / 64
  · rw [if_pos hswew]
    -- single-word case
    have hsw_lt : idx / 64 < (increment_len v).inner.length := by
      rw [hW1]; omega
    have hword_lt : (increment_len v).inner.getD (idx / 64) 0 < 2 ^ 64 :=
      getD_lt_two_pow hInv1.2 _
    refine ⟨rfl, ?_, ?_, ?_⟩
    · constructor
      · simp only [List.length_set]
        exact hInv1.1
      · intro w hw
        rcases List.mem_or_eq_of_mem_set hw with hw' | rfl
        · exact hInv1.2 w hw'
        · apply Nat.bitwise_lt_two_pow
          · calc _ ≤ (increment_len v).inner.getD (idx / 64) 0 := Nat.and_le_left
              _ < 2 ^ 64 := hword_lt
          · exact Nat.mod_lt _ (by omega)
    · intro j hj
      unfold tb
      simp only []
      by_cases hjw : j / 64 = idx / 64
      · rw [hjw, getD_set_eq _ hsw_lt]
        rw [testBit_maskStep _ _ _ (by omega) (by omega)]
        rw [if_pos (by omega : j % 64 < idx % 64)]
        rw [← hjw, increment_len_getD _ (by rw [hW0]; omega)]
      · rw [getD_set_ne _ (by omega : ¬idx / 64 = j / 64)]
        rw [increment_len_getD _ (by rw [hW0]; omega)]
    · intro j hj hjle
      have hjw : j / 64 = idx / 64 := by omega
      unfold tb
      simp only []
      rw [hjw, getD_set_eq _ hsw_lt]
      rw [testBit_maskStep _ _ _ (by omega) (by omega)]
      rw [if_neg (by omega : ¬j % 64 < idx % 64), if_neg (by omega : ¬j % 64 = idx % 64)]
      rw [increment_len_getD _ (by rw [hW0]; omega)]
      have e1 : (j - 1) / 64 = idx / 64 := by omega
      have e2 : (j - 1) % 64 = j % 64 - 1 := by omega
      rw [e1, e2]
  · rw [if_neg hswew]
    -- multi-word case
    have hswle : idx / 64 < v.len / 64 := by omega
    have hscl : idx / 64 + (v.len / 64 - idx / 64) < (increment_len v).inner.length := by
      rw [hW1]; omega
    have hsl := shiftWords_getD (idx / 64) (v.len / 64 - idx / 64) (increment_len v).inner hscl
    have hslen : (shiftWords (increment_len v).inner (idx / 64) (v.len / 64 - idx / 64)).length =
        (increment_len v).inner.length := shiftWords_length _ _ _
    have hswords : ∀ w ∈ shiftWords (increment_len v).inner (idx / 64) (v.len / 64 - idx / 64),
        w < 2 ^ 64 := shiftWords_words_lt _ _ _ hInv1.2
    have hsw_lt : idx / 64 <
        (shiftWords (increment_len v).inner (idx / 64) (v.len / 64 - idx / 64)).length := by
      rw [hslen, hW1]; omega
    have hword_eq : (shiftWords (increment_len v).inner (idx / 64)
        (v.len / 64 - idx / 64)).getD (idx / 64) 0 = (increment_len v).inner.getD (idx / 64) 0 := by
      rw [hsl (idx / 64)]
      rw [if_neg (by omega : ¬(idx / 64 + 1 ≤ idx / 64 ∧ idx / 64 ≤ idx / 64 + (v.len / 64 - idx / 64)))]
    have hword_lt : (shiftWords (increment_len v).inner (idx / 64)
        (v.len / 64 - idx / 64)).getD (idx / 64) 0 < 2 ^ 64 :=
      getD_lt_two_pow hswords _
    refine ⟨rfl, ?_, ?_, ?_⟩
    · constructor
      · simp only [List.length_set]
        rw [hslen]
        exact hInv1.1
      · intro w hw
        rcases List.mem_or_eq_of_mem_set hw with hw' | rfl
        · exact hswords w hw'
        · apply Nat.bitwise_lt_two_pow
          · calc _ ≤ (shiftWords (increment_len v).inner (idx / 64)
                (v.len / 64 - idx / 64)).getD (idx / 64) 0 := Nat.and_le_left
              _ < 2 ^ 64 := hword_lt
          · exact Nat.mod_lt _ (by omega)
    · intro j hj
      unfold tb
      simp only []
      by_cases hjw : j / 64 = idx / 64
      · rw [hjw, getD_set_eq _ hsw_lt]
        rw [hword_eq]
        rw [testBit_maskStep _ _ _ (by omega) (by omega)]
        rw [if_pos (by omega : j % 64 < idx % 64)]
        rw [← hjw, increment_len_getD _ (by rw [hW0]; omega)]
      · rw [getD_set_ne _ (by omega : ¬idx / 64 = j / 64)]
        rw [hsl (j / 64)]
        rw [if_neg (by omega : ¬(idx / 64 + 1 ≤ j / 64 ∧ j / 64 ≤ idx / 64 + (v.len / 64 - idx / 64)))]
        rw [increment_len_getD _ (by rw [hW0]; omega)]
    · intro j hj hjle
      unfold tb
      simp only []
      by_cases hjw : j / 64 = idx / 64
      · rw [hjw, getD_set_eq _ hsw_lt]
        rw [hword_eq]
        rw [testBit_maskStep _ _ _ (by omega) (by omega)]
        rw [if_neg (by omega : ¬j % 64 < idx % 64), if_neg (by omega : ¬j % 64 = idx % 64)]
        rw [increment_len_getD _ (by rw [hW0]; omega)]
        have e1 : (j - 1) / 64 = idx / 64 := by omega
        have e2 : (j - 1) % 64 = j % 64 - 1 := by omega
        rw [e1, e2]
      · rw [getD_set_ne _ (by omega : ¬idx / 64 = j / 64)]
        have hjr : j / 64 ≤ v.len / 64 := by omega
        have hjgt : idx / 64 < j / 64 := by omega
        rw [hsl (j / 64)]
        rw [if_pos (by omega : idx / 64 + 1 ≤ j / 64 ∧ j / 64 ≤ idx / 64 + (v.len / 64 - idx / 64))]
        rw [testBit_carry _ _ (getD_lt_two_pow hInv1.2 _) _ (by omega)]
        by_cases hb0 : j % 64 = 0
        · rw [if_pos hb0]
          have e1 : (j - 1) / 64 = j / 64 - 1 := by omega
          have e2 : (j - 1) % 64 = 63 := by omega
          rw [increment_len_getD _ (by rw [hW0]; omega)]
          rw [e1, e2]
        · rw [if_neg hb0]
          have e1 : (j - 1) / 64 = j / 64 := by omega
          have e2 : (j - 1) % 64 = j % 64 - 1 := by omega
          rw [increment_len_getD _ (by rw [hW0]; omega)]
          rw [e1, e2]

/-- `set` at a valid index realises `List.set` on the abstraction. -/
theorem toList_set {v : NodeKindVec} (hInv : Inv v) {idx : Nat} (hidx : idx < v.len)
    (k : NodeKind) :
    toList (set v idx k) = (toList v).set idx k := by
  apply List.ext_getElem?
  intro i
  rw [List.getElem?_set]
  by_cases he : idx = i
  · subst he
    rw [if_pos rfl, if_pos (by rw [length_toList]; omega)]
    rw [List.getElem?_eq_getElem
      (by rw [length_toList, set_len]; omega : idx < (toList (set v idx k)).length)]
    simp only [toList, List.getElem_map, List.getElem_range]
    rw [tb_set hInv hidx k, if_pos rfl, kindOfBit_decide]
  · rw [if_neg he]
    by_cases hi : i < v.len
    · rw [List.getElem?_eq_getElem
        (by rw [length_toList, set_len]; omega : i < (toList (set v idx k)).length)]
      rw [List.getElem?_eq_getElem (by rw [length_toList]; omega : i < (toList v).length)]
      simp only [toList, List.getElem_map, List.getElem_range]
      rw [tb_set hInv hidx k, if_neg (fun hc => he hc.symm)]
    · rw [List.getElem?_eq_none (by rw [length_toList, set_len]; omega),
        List.getElem?_eq_none (by rw [length_toList]; omega)]

/-- `List.insertIdx` at an in-range position, read through `getElem?`. -/
theorem getElem_opt_insertIdx {α : Type} (x : α) :
    ∀ (l : List α) (idx : Nat), idx ≤ l.length → ∀ i,
      (l.insertIdx idx x)[i]? =
        if i < idx then l[i]? else if i = idx then some x else l[i - 1]? := by
  intro l
  induction l with
  | nil =>
    intro idx hidx i
    have h0 : idx = 0 := by simpa using hidx
    subst h0
    cases i with
    | zero => simp [List.insertIdx]
    | succ m => simp [List.insertIdx]
  | cons a t ih =>
    intro idx hidx i
    cases idx with
    | zero =>
      cases i with
      | zero => simp [List.insertIdx]
      | succ m => simp [List.insertIdx]
    | succ n =>
      cases i with
      | zero =>
        rw [if_pos (by omega)]
        rw [show ((a :: t).insertIdx (n + 1) x) = a :: (t.insertIdx n x) from rfl]
        rw [List.getElem?_cons_zero, List.getElem?_cons_zero]
      | succ m =>
        have hrec := ih n (by simpa using hidx) m
        rw [show ((a :: t).insertIdx (n + 1) x) = a :: (t.insertIdx n x) from rfl]
        rw [List.getElem?_cons_succ, hrec]
        by_cases h1 : m < n
        · rw [if_pos h1, if_pos (by omega : m + 1 < n + 1), List.getElem?_cons_succ]
        · rw [if_neg h1, if_neg (by omega : ¬m + 1 < n + 1)]
          by_cases h2 : m = n
          · rw [if_pos h2, if_pos (by omega : m + 1 = n + 1)]
          · rw [if_neg h2, if_neg (by omega : ¬m + 1 = n + 1)]
            rw [show m + 1 - 1 = (m - 1) + 1 by omega, List.getElem?_cons_succ]

/-- `insert` at a valid index realises `List.insertIdx` on the abstraction,
preserving the representation invariant. -/
theorem toList_insert {v : NodeKindVec} (hInv : Inv v) {idx : Nat} (hidx : idx ≤ v.len)
    (k : NodeKind) :
    toList (insert v idx k) = (toList v).insertIdx idx k ∧ Inv (insert v idx k) ∧
      (insert v idx k).len = v.len + 1 := by
  unfold insert
  rw [if_neg (by omega : ¬idx > v.len)]
  by_cases he : idx = v.len
  · rw [if_pos he]
    obtain ⟨h1, h2, h3⟩ := toList_push_back hInv k
    refine ⟨?_, h2, h3⟩
    rw [h1, he, ← length_toList v, List.insertIdx_length_self]
  · rw [if_neg he]
    have hlt : idx < v.len := by omega
    obtain ⟨hlen, hinv2, hlow, hhigh⟩ := shift_right_spec hInv hlt
    have hidx2 : idx < (shift_right v idx).len := by rw [hlen]; omega
    refine ⟨?_, Inv_set hinv2 idx k, by rw [set_len, hlen]⟩
    rw [toList_set hinv2 hidx2 k]
    apply List.ext_getElem?
    intro i
    rw [List.getElem?_set,
      getElem_opt_insertIdx k (toList v) idx (by rw [length_toList]; omega) i]
    by_cases he2 : idx = i
    · subst he2
      rw [if_pos rfl, if_pos (by rw [length_toList, hlen]; omega),
        if_neg (by omega : ¬idx < idx), if_pos rfl]
    · rw [if_neg he2]
      by_cases h1 : i < idx
      · rw [if_pos h1]
        by_cases hi : i < v.len
        · rw [List.getElem?_eq_getElem
            (by rw [length_toList, hlen]; omega : i < (toList (shift_right v idx)).length)]
          rw [List.getElem?_eq_getElem (by rw [length_toList]; omega : i < (toList v).length)]
          simp only [toList, List.getElem_map, List.getElem_range]
          rw [hlow i h1]
        · omega
      · rw [if_neg h1, if_neg (fun hc => he2 hc.symm)]
        have hgt : idx < i := by omega
        by_cases hi : i ≤ v.len
        · rw [List.getElem?_eq_getElem
            (by rw [length_toList, hlen]; omega : i < (toList (shift_right v idx)).length)]
          rw [List.getElem?_eq_getElem
            (by rw [length_toList]; omega : i - 1 < (toList v).length)]
          simp only [toList, List.getElem_map, List.getElem_range]
          rw [hhigh i hgt hi]
        · rw [List.getElem?_eq_none (by rw [length_toList, hlen]; omega),
            List.getElem?_eq_none (by rw [length_toList]; omega)]

theorem Inv_new : Inv new := by
  constructor
  · rfl
  · intro w hw
    cases hw

theorem toList_new : toList new = [] := rfl

/-- One step of the repository's property test (src/nodekind_vec.rs:189):
push a tag, insert a tag at an index, or overwrite a tag at an index. -/
inductive TagOp where
  | pushT (k : NodeKind)
  | insT (i : Nat) (k : NodeKind)
  | setT (i : Nat) (k : NodeKind)
deriving DecidableEq, Repr

/-- Run a sequence of tag operations on the bit-packed vector, skipping the
out-of-range calls that would panic in Rust (exactly the guard the repo's
proptest applies before calling `insert`/`set`). -/
def runNKV : List TagOp → NodeKindVec → NodeKindVec
  | [], v => v
  | op :: rest, v =>
    runNKV rest (match op with
      | TagOp.pushT k => push_back v k
      | TagOp.insT i k => if i ≤ v.len then insert v i k else v
      | TagOp.setT i k => if i < v.len then set v i k else v)

/-- The same sequence on the plain-list model, with the same guards. -/
def runModel : List TagOp → List NodeKind → List NodeKind
  | [], l => l
  | op :: rest, l =>
    runModel rest (match op with
      | TagOp.pushT k => l ++ [k]
      | TagOp.insT i k => if i ≤ l.length then l.insertIdx i k else l
      | TagOp.setT i k => if i < l.length then l.set i k else l)

theorem runNKV_toList (ops : List TagOp) :
    ∀ v, Inv v → toList (runNKV ops v) = runModel ops (toList v) ∧ Inv (runNKV ops v) := by
  induction ops with
  | nil =>
    intro v h
    exact ⟨rfl, h⟩
  | cons op rest ih =>
    intro v h
    cases op with
    | pushT k =>
      obtain ⟨h1, h2, _⟩ := toList_push_back h k
      show toList (runNKV rest (push_back v k)) = runModel rest (toList v ++ [k]) ∧ _
      rw [← h1]
      exact ih (push_back v k) h2
    | insT i k =>
      show toList (runNKV rest (if i ≤ v.len then insert v i k else v)) =
          runModel rest (if i ≤ (toList v).length then (toList v).insertIdx i k
            else toList v) ∧
        Inv (runNKV rest (if i ≤ v.len then insert v i k else v))
      rw [length_toList]
      by_cases hg : i ≤ v.len
      · rw [if_pos hg, if_pos hg]
        obtain ⟨h1, h2, _⟩ := toList_insert h hg k
        rw [← h1]
        exact ih (insert v i k) h2
      · rw [if_neg hg, if_neg hg]
        exact ih v h
    | setT i k =>
      show toList (runNKV rest (if i < v.len then set v i k else v)) =
          runModel rest (if i < (toList v).length then (toList v).set i k
            else toList v) ∧
        Inv (runNKV rest (if i < v.len then set v i k else v))
      rw [length_toList]
      by_cases hg : i < v.len
      · rw [if_pos hg, if_pos hg]
        rw [← toList_set h hg k]
        exact ih (set v i k) (Inv_set h i k)
      · rw [if_neg hg, if_neg hg]
        exact ih v h

end NKV

/-! ### Claims settled by concrete computation -/

/-- C5: a snapshot taken by `create_slice()` or `slice(range)` from a
well-formed table renders the same text after any valid sequence of
insert/delete/replace operations on the table as it did at creation: the
operations never change `original`, only append to `added`, and every snapshot
node stays inside the buffers as they were at creation time. -/
theorem c5_snapshot_render_immutable (t : PieceTable) (ops : List Op) (sl : PTableSlice)
    (hwf : t.Wf)
    (hsl : sl = t.create_slice ∨ ∃ a b, a ≤ b ∧ sl = t.slice a b)
    (hv : ValidOps t ops) :
    renderSlice sl (applyOps t ops).original (applyOps t ops).added =
      renderSlice sl t.original t.added := by
  have hnb : NodesInBounds t.original t.added sl.nodes := by
    rcases hsl with rfl | ⟨a, b, hab, rfl⟩
    · exact hwf
    · exact nodesInBounds_sliceWalk hwf a b 0 false
  obtain ⟨ext, hext⟩ := applyOps_added_extends t ops
  rw [renderSlice, renderSlice, applyOps_original, hext]
  exact renderNodes_added_append t.original t.added ext hnb

/-- Witness for C5: snapshot of `new "hi"`, then insert `"!"` at the end. -/
theorem c5_snapshot_witness :
    (PieceTable.new [104, 105]).Wf ∧
    ValidOps (PieceTable.new [104, 105]) [Op.ins [33] 2] ∧
    renderSlice ((PieceTable.new [104, 105]).create_slice)
        (applyOps (PieceTable.new [104, 105]) [Op.ins [33] 2]).original
        (applyOps (PieceTable.new [104, 105]) [Op.ins [33] 2]).added =
      renderSlice ((PieceTable.new [104, 105]).create_slice)
        (PieceTable.new [104, 105]).original (PieceTable.new [104, 105]).added :=
  ⟨by decide, by decide,
    c5_snapshot_render_immutable (PieceTable.new [104, 105]) [Op.ins [33] 2]
      ((PieceTable.new [104, 105]).create_slice) (by decide) (Or.inl rfl) (by decide)⟩

/-- C9: on every table reachable from `new(text)` by a valid operation
sequence, `byte(at)` returns `Some` of the `at`-th byte of the rendered text
when `at` is in range and `None` otherwise — i.e. it agrees with `render[at]?`. -/
theorem c9_byte_agrees_with_render (s : List Nat) (ops : List Op)
    (hv : ValidOps (PieceTable.new s) ops) (i : Nat) :
    (applyOps (PieceTable.new s) ops).byte i =
      ((applyOps (PieceTable.new s) ops).render)[i]? :=
  byte_eq_render_getElem (wf_applyOps (wf_new s) ops) i

/-- Witness for C9: `new "ab"`, `delete(0..1)`, `byte(0)` is `Some 'b'`. -/
theorem c9_byte_witness :
    ValidOps (PieceTable.new [97, 98]) [Op.del 0 1] ∧
    (applyOps (PieceTable.new [97, 98]) [Op.del 0 1]).byte 0 = some 98 :=
  ⟨by decide,
    (c9_byte_agrees_with_render [97, 98] [Op.del 0 1] (by decide) 0).trans (by decide)⟩

/-- C1: the claim says that for every in-bounds, character-boundary-aligned
operation sequence the `PieceTable` and the `Baseline` plain-string model render
the same text after every operation.  The code violates this: on the initial
text `"abc"` the single in-bounds aligned operation `delete(2..3)` leaves the
piece table rendering `"a"` while the baseline renders `"ab"` (the repository's
own `compare_implementations` property test asserts exactly this equivalence,
so this is a bug in the code, in `split_node`'s third branch). -/
theorem c1_delete_diverges_from_baseline :
    PieceTable.render ((PieceTable.new [97, 98, 99]).delete 2 3) = [97] ∧
    Baseline.delete [97, 98, 99] 2 3 = [97, 98] := by
  exact ⟨rfl, rfl⟩

/-- C2: the claim says that for every reachable table `len()` equals the sum of
the node lengths and the rendered text has exactly `len()` bytes.  After
`new("abc"); delete(2..3)` (in-bounds and aligned) the cached length is 2 while
the node lengths sum to 1 and the rendered text has 1 byte — contradicting the
`debug_assert_eq!(self.len, self.to_string().len())` inside `len()` itself. -/
theorem c2_len_invariant_violated :
    ((PieceTable.new [97, 98, 99]).delete 2 3).len = 2 ∧
    (((PieceTable.new [97, 98, 99]).delete 2 3).nodes.map Node.len).sum = 1 ∧
    (PieceTable.render ((PieceTable.new [97, 98, 99]).delete 2 3)).length = 1 := by
  exact ⟨rfl, rfl, rfl⟩

/-- C3: the claim (and the function's own doc comment, case 2 "Same as case 1")
says `split_node(idx, local_offset)` with `local_offset >= node.len` returns
false and leaves the table unchanged.  On the single-node table for `"abc"`
(node range `0..3`), `split_node(0, 3)` does return false but executes
`range.end -= offset - 1`, shrinking the node to `0..1`. -/
theorem c3_split_node_mutates_on_offset_at_len :
    ((PieceTable.new [97, 98, 99]).split_node 0 3).2 = false ∧
    ((PieceTable.new [97, 98, 99]).split_node 0 3).1.nodes =
      [{ kind := NodeKind.Original, start := 0, rangeEnd := 1 }] ∧
    (PieceTable.new [97, 98, 99]).nodes =
      [{ kind := NodeKind.Original, start := 0, rangeEnd := 3 }] := by
  refine ⟨rfl, rfl, rfl⟩

/-- C4 counterexample: the claim says `replace(data, offset)` equals `delete`
over `[offset, min(offset + data.len, len()))` followed by `insert`.  The code
clamps to `len() - 1` instead: on `new("abcd")`, `replace("hello!", 0)` renders
`"hello!d"` while the claimed composition renders `"hello!"`, so the states
differ. -/
theorem c4_replace_differs_from_len_clamped_composition :
    (PieceTable.new [97, 98, 99, 100]).replace [104, 101, 108, 108, 111, 33] 0 ≠
      ((PieceTable.new [97, 98, 99, 100]).delete 0
          (min (0 + 6) (PieceTable.new [97, 98, 99, 100]).len)).insert
        [104, 101, 108, 108, 111, 33] 0 := by
  decide

/-- C4 (amended): for every non-empty table and `offset ≤ len`, `replace(data,
offset)` leaves the table in exactly the state of `delete` over
`[offset, min(offset + data.len, len() - 1))` followed by `insert(data, offset)`
(the non-emptiness reflects that Rust's `self.len() - 1` panics on an empty
table). -/
theorem c4_replace_eq_delete_insert_clamped_to_len_sub_one
    (t : PieceTable) (data : List Nat) (offset : Nat)
    (hlen : 0 < t.len) (hoff : offset ≤ t.len) :
    t.replace data offset =
      (t.delete offset (min (offset + data.length) (t.len - 1))).insert data offset := rfl

/-- Witness for the amended C4 at `t = new "a"`, `data = "b"`, `offset = 1`. -/
theorem c4_replace_witness :
    0 < (PieceTable.new [97]).len ∧ 1 ≤ (PieceTable.new [97]).len ∧
    (PieceTable.new [97]).replace [98] 1 =
      ((PieceTable.new [97]).delete 1 (min (1 + 1) ((PieceTable.new [97]).len - 1))).insert [98] 1 :=
  ⟨by decide, by decide,
    c4_replace_eq_delete_insert_clamped_to_len_sub_one (PieceTable.new [97]) [98] 1
      (by decide) (by decide)⟩

/-- C6: for a well-formed table and `S = table.slice(a..b)` with
`a ≤ b ≤ len()`, and any `c ≤ d ≤ b - a` (with `d` a `usize`), `S.slice(c..d)`
renders identically to `table.slice(a+c..a+d)` — where an absent sub-slice
(`None`, returned when the clipped node list is empty, e.g. for `c = d`)
renders as the empty text, exactly as the empty `table.slice(a+c..a+c)` does. -/
theorem c6_reslice_renders_as_table_slice (t : PieceTable) (a b c d : Nat)
    (hwf : t.Wf) (hab : a ≤ b) (hb : b ≤ t.len) (hcd : c ≤ d) (hd : d ≤ b - a)
    (hu : d < 2 ^ 64) :
    renderOptSlice ((t.slice a b).slice c d) t.original t.added =
      renderSlice (t.slice (a + c) (a + d)) t.original t.added := by
  have hnb : NodesInBounds t.original t.added (t.slice a b).nodes :=
    nodesInBounds_sliceWalk hwf a b 0 false
  rw [renderOptSlice_reslice (t.slice a b) c d t.original t.added hnb hcd hu]
  rw [renderSlice_slice t a b hwf, renderSlice_slice t (a + c) (a + d) hwf]
  rw [List.drop_take, List.drop_drop, List.take_take]
  exact take_drop_congr _ (by omega) (by omega)

/-- Witness for C6: `new "hello"`, `a..b = 0..5`, `c..d = 1..4`. -/
theorem c6_reslice_witness :
    (PieceTable.new [104, 101, 108, 108, 111]).Wf ∧ (1 : Nat) ≤ 4 ∧ (4 : Nat) ≤ 5 - 0 ∧
    renderOptSlice (((PieceTable.new [104, 101, 108, 108, 111]).slice 0 5).slice 1 4)
        (PieceTable.new [104, 101, 108, 108, 111]).original
        (PieceTable.new [104, 101, 108, 108, 111]).added =
      renderSlice ((PieceTable.new [104, 101, 108, 108, 111]).slice (0 + 1) (0 + 4))
        (PieceTable.new [104, 101, 108, 108, 111]).original
        (PieceTable.new [104, 101, 108, 108, 111]).added :=
  ⟨by decide, by decide, by decide,
    c6_reslice_renders_as_table_slice (PieceTable.new [104, 101, 108, 108, 111]) 0 5 1 4
      (by decide) (by decide) (by decide) (by decide) (by decide) (by decide)⟩

/-- C7: the claim says the cascading 64/8/1 locator returns exactly what a naive
left-to-right scan returns for every length array and offset.  It does not: the
inner stages are passed the absolute `offset` without subtracting the bytes
already skipped, and the final scalar stage drops the accumulated base, so with
nine nodes of length 1 and `offset = 8` the cascade returns `None` while the
naive scan finds node 8 at cumulative byte 8. -/
theorem c7_cascading_locator_diverges_from_naive_scan :
    Nds.find_node (List.replicate 9 1) 8 = none ∧
    Nds.naiveFindNode (List.replicate 9 1) 8 = some (8, 8) := by
  exact ⟨rfl, rfl⟩

/-- C10: the claim (and the method's doc comment) says `PTableSlice::slice`
returns `None` when `range.start > range.end`.  The code first computes
`range.end - range.start`, which underflows: in debug builds it panics, and
with release (wrap-around) semantics the walk consumes the huge budget and can
return `Some`: slicing the full slice of `"hello"` with `3..1` yields a slice
rendering `"lo"`. -/
theorem c10_slice_reversed_range_not_none :
    ((PieceTable.new [104, 101, 108, 108, 111]).slice 0 5).slice 3 1 =
      some ⟨[{ kind := NodeKind.Original, start := 3, rangeEnd := 5 }]⟩ ∧
    renderOptSlice (((PieceTable.new [104, 101, 108, 108, 111]).slice 0 5).slice 3 1)
      (PieceTable.new [104, 101, 108, 108, 111]).original
      (PieceTable.new [104, 101, 108, 108, 111]).added = [108, 111] := by
  exact ⟨rfl, rfl⟩

/-- C8: under every sequence of `push_back`, in-range `insert` (index ≤ current
length) and in-range `set` (index < current length) operations, the bit-packed
`NodeKindVec` is observably identical, index for index, to an ordinary growable
two-valued list: the lengths agree, `get i` returns exactly what indexing the
plain-list model returns at every index `i`, and `get` returns `None` precisely
when `i` is at or past the length.  The sequences quantified over include every
insertion whose bit-shift crosses machine-word boundaries. -/
theorem c8_nodekind_vec_refines_list (ops : List NKV.TagOp) :
    (NKV.runNKV ops NKV.new).len = (NKV.runModel ops []).length ∧
      ∀ i, NKV.get (NKV.runNKV ops NKV.new) i = (NKV.runModel ops [])[i]? ∧
        (NKV.get (NKV.runNKV ops NKV.new) i = none ↔ (NKV.runModel ops []).length ≤ i) := by
  obtain ⟨h1, _⟩ := NKV.runNKV_toList ops NKV.new NKV.Inv_new
  rw [NKV.toList_new] at h1
  constructor
  · rw [← h1, NKV.length_toList]
  · intro i
    have hg : NKV.get (NKV.runNKV ops NKV.new) i = (NKV.runModel ops [])[i]? := by
      rw [NKV.get_eq_toList, h1]
    refine ⟨hg, ?_⟩
    rw [hg]
    exact List.getElem?_eq_none_iff

end PieceTableRs
